import Mathlib

/-
Verification of the octet biased-locking library (octet-core.hpp, octet.cpp,
octet-private.hpp, octet.hpp) against its natural-language specification.

The development has three parts:

* a sequential functional embedding of the per-thread counter operations
  (OctetThreadInfo::handleRequests, unblock, ping), the tagged lock-word
  encoding, and the barrier code paths (lockIntermediate, awaitResponse,
  notifyOne, writeSlowPath, writeBarrier, Lock::Lock, Lock::forceUnlock,
  the variadic lock() loop), where the loops take an explicit environment
  list describing the values concurrent threads wrote at each spin;

* an interleaved small-step model of a single OctetThreadInfo's two atomic
  words, splitting handleRequests into its two atomic accesses, used for
  the response-bound invariant;

* a global small-step model of the whole protocol (all threads, all locks,
  with the program points of writeSlowPath made explicit), used for the
  mutual-exclusion / intermediate-serialization claim.

All machine words are modelled as Nat; the only arithmetic that can
overflow a 32-bit word in the source is the fetch_add in ping, which the
source guards with assert(req < 2147483644); the models carry the
corresponding bound (and the explicit % 2^32 where the addition occurs).
-/

namespace Octet

/-! ### The OctetThreadInfo record (octet-core.hpp lines 90-100)

`requests_` is a 32-bit atomic word: low bit = blocked flag, upper 31 bits
= request counter.  `responses_` is a 32-bit atomic word written only by
the owning thread. -/

structure TInfo where
  requests : Nat
  responses : Nat
  deriving DecidableEq, Repr

/-- The modulus 2^32 of the 32-bit machine words. -/
def W32 : Nat := 4294967296

/-- The constructor OctetThreadInfo::OctetThreadInfo(startBlocked)
    : requests_(startBlocked), responses_(0)  (octet.cpp lines 131-137). -/
def TInfo.mk0 (startBlocked : Bool) : TInfo :=
  { requests := if startBlocked then 1 else 0, responses := 0 }

/-- The method OctetThreadInfo::handleRequests (octet.cpp lines 139-157).
    fetch_or returns the old value `req`; the new requests word is
    `req | shouldBlock`; `req >> 1` is stored into responses_. -/
def TInfo.handleRequests (t : TInfo) (shouldBlock : Bool) : TInfo :=
  let req := t.requests
  { requests := t.requests ||| (if shouldBlock then 1 else 0),
    responses := req / 2 }

/-- The assertion `assert(!(req & 1))` inside handleRequests: the prior
    value returned by the fetch_or must not have the blocked bit set. -/
def TInfo.handleRequestsAssertOk (t : TInfo) : Prop := t.requests % 2 = 0

/-- The method OctetThreadInfo::unblock (octet.cpp lines 159-162):
    requests_.fetch_and(~1) clears the blocked bit. -/
def TInfo.unblock (t : TInfo) : TInfo :=
  { t with requests := t.requests - t.requests % 2 }

/-- The function ping (octet.cpp lines 237-262).  `owner->requests_ += 2` yields the
    updated value `req` (a 32-bit word, hence the explicit modulus);
    the function reports `owner_was_blocked = req & 1` and returns the
    required response count `req >> 1`, leaving the updated owner record.
    Result: (updated owner, new_request_count, owner_was_blocked). -/
def ping (owner : TInfo) : TInfo × Nat × Bool :=
  let req := (owner.requests + 2) % W32
  ({ owner with requests := req }, req / 2, req % 2 == 1)

/-- The assertion `assert(req < 2147483644ul)` (2^31 - 4) in ping. -/
def pingAssertOk (owner : TInfo) : Prop := (owner.requests + 2) % W32 < 2147483644

/-! ### Lock state word encoding (octet-core.hpp lines 105-141)

octetLockState_t is a pointer-sized value, modelled as Nat: 0 is RdSh,
1 is Intermediate; otherwise the value is the address of the owner's
OctetThreadInfo, with the low bit distinguishing WrEx (clear) from RdEx
(set).  ThreadInfo addresses are 2-byte aligned and non-null. -/

def RDSH : Nat := 0

def INTERMEDIATE : Nat := 1

/-- The macro WREX(T) = reinterpret_cast of the ThreadInfo address. -/
def WREX (p : Nat) : Nat := p

/-- The macro RDEX(T) = address | 0x1. -/
def RDEX (p : Nat) : Nat := p ||| 1

/-- The macro GET_TID(X) = (X) & ~1 : clear the low tag bit. -/
def GET_TID (x : Nat) : Nat := x - x % 2

/-! ### Sequential machine state

One lock plus the heap of OctetThreadInfo records, executed by the thread
whose ThreadInfo lives at address `self` (the thread-local myThreadInfo).
Spin loops take an explicit environment: a list with one entry per failed
loop iteration describing what concurrent threads wrote before the reload
(the lock word, and any ThreadInfo records such as the pinged owner's
responses or our own requests word).  An exhausted environment means the
loop is still spinning, which the functions report as `none`. -/

structure MState where
  word : Nat
  tinfo : Nat → TInfo
  self : Nat

/-- Write the ThreadInfo record at address `a`. -/
def MState.setT (s : MState) (a : Nat) (t : TInfo) : MState :=
  { s with tinfo := fun x => if x = a then t else s.tinfo x }

/-- The call myThreadInfo->handleRequests(b). -/
def MState.selfHR (s : MState) (b : Bool) : MState :=
  s.setT s.self ((s.tinfo s.self).handleRequests b)

/-- One round of interference by other threads: the value they leave in
the lock word and the ThreadInfo records they wrote. -/
structure Interf where
  word : Nat
  heap : List (Nat × TInfo)

def applyInterf (s : MState) (i : Interf) : MState :=
  { (i.heap.foldl (fun st p => st.setT p.1 p.2) s) with word := i.word }

/-- Events the slow path performs on thread records, for stating which
calls (ping, awaitResponse, handleRequests) a run makes. -/
inductive SEv where
  | hreq (b : Bool)
  | pinged (a : Nat)
  | awaited (a c : Nat)
  deriving DecidableEq, Repr

/-- The function lockIntermediate (octet.cpp lines 183-226).  Each iteration loads the
word and, unless it is INTERMEDIATE, attempts the compare_exchange_weak
from the loaded value.  An environment entry stands for one failed
iteration (the word was INTERMEDIATE, or the weak CAS failed): the body
yields, calls myThreadInfo->handleRequests(false), and the interference
is applied before the reload.  With the environment exhausted the CAS
from a non-INTERMEDIATE word succeeds and the prior value is returned. -/
def lockIntermediate (s : MState) : List Interf → Option (Nat × MState × List SEv)
  | [] =>
      if s.word ≠ INTERMEDIATE then some (s.word, { s with word := INTERMEDIATE }, [])
      else none
  | i :: rest =>
      match lockIntermediate (applyInterf (s.selfHR false) i) rest with
      | none => none
      | some (prev, s', tr) => some (prev, s', SEv.hreq false :: tr)

/-- The function awaitResponse (octet.cpp lines 270-295): load owner->responses_ and,
while it is below the desired count, yield, handle our own pending
requests, let the environment act, and reload. -/
def awaitResponse (s : MState) (owner desired : Nat) :
    List Interf → Option (MState × List SEv)
  | [] =>
      if (s.tinfo owner).responses ≥ desired then some (s, []) else none
  | i :: rest =>
      if (s.tinfo owner).responses ≥ desired then some (s, [])
      else
        match awaitResponse (applyInterf (s.selfHR false) i) owner desired rest with
        | none => none
        | some (s', tr) => some (s', SEv.hreq false :: tr)

/-- The function notifyOne (octet.cpp lines 302-319): ping the owner; if it was not
blocked at the time of the ping, wait for its response. -/
def notifyOne (s : MState) (owner : Nat) (env : List Interf) :
    Option (MState × List SEv) :=
  let p := ping (s.tinfo owner)
  let s1 := s.setT owner p.1
  if p.2.2 then some (s1, [SEv.pinged owner])
  else
    match awaitResponse s1 owner p.2.1 env with
    | none => none
    | some (s2, tr) => some (s2, SEv.pinged owner :: SEv.awaited owner p.2.1 :: tr)

/-- The function writeSlowPath (octet.cpp lines 328-422), compiled with READSHARED = 0
(the IS_RDSH branch is excluded from the build, as in the source's
default configuration).  Snapshot responses, transition the lock to
INTERMEDIATE, notify the prior owner unless it is ourselves (in the self
case the source's assert(prevLock = RDEX(myThreadInfo)) writes the dead
local prevLock and cannot fail), store WREX(self), snapshot responses
again and report whether the two snapshots differ. -/
def writeSlowPath (s : MState) (envLI envAR : List Interf) :
    Option (Bool × MState × List SEv) :=
  let requestsBefore := (s.tinfo s.self).responses
  match lockIntermediate s envLI with
  | none => none
  | some (prevLock, s1, tr1) =>
      let owner := GET_TID prevLock
      let cont : Option (MState × List SEv) :=
        if owner ≠ s1.self then notifyOne s1 owner envAR
        else some (s1, [])
      match cont with
      | none => none
      | some (s2, tr2) =>
          let s3 := { s2 with word := WREX s2.self }
          let requestsAfter := (s3.tinfo s3.self).responses
          some (requestsBefore != requestsAfter, s3, tr1 ++ tr2)

/-- The function writeBarrier (octet-core.hpp lines 173-200): load the word; if it is
WREX(myThreadInfo) return false on the fast path, otherwise delegate to
writeSlowPath. -/
def writeBarrier (s : MState) (envLI envAR : List Interf) :
    Option (Bool × MState × List SEv) :=
  let goalState := WREX s.self
  let curState := s.word
  if curState ≠ goalState then writeSlowPath s envLI envAR
  else some (false, s, [])

/-- The function noThreadInfo (octet.cpp lines 524-531): the process-wide sentinel
("dead thread") OctetThreadInfo, constructed with startBlocked = true. -/
def noThreadInfo : TInfo := TInfo.mk0 true

/-- The constructor Lock::Lock() (octet.cpp lines 533-537): lk_( WREX( noThreadInfo() ) ),
where ntiAddr is the sentinel's address. -/
def lockInit (ntiAddr : Nat) : Nat := WREX ntiAddr

/-- The method Lock::forceUnlock (octet.cpp lines 540-559).  The word is loaded
(relaxed); between the load and the compare_exchange_strong other threads
may overwrite it, leaving `mid` (mid = s.word when nothing intervened).
If the tagged ThreadInfo of the loaded value is myThreadInfo, a single
compare_exchange_strong to WREX(sentinel) is attempted; otherwise nothing
is written. -/
def forceUnlock (s : MState) (ntiAddr mid : Nat) : MState :=
  let unlocked := WREX ntiAddr
  let objLock := s.word
  if GET_TID objLock = s.self then
    if mid = objLock then { s with word := unlocked } else { s with word := mid }
  else { s with word := mid }

/-! ### The variadic lock() template (octet-private.hpp lines 31-103)

trylockOne calls writeLock or readLock on one lock and returns its
interrupted flag; trylockThem folds the flags of the remaining
(lock, mode) pairs with |=.  The do/while loop of lock() is modelled over
a list of iteration outcomes: entry k carries the interrupted flags that
the barrier calls of the k-th iteration return (the first lock's flag,
which the loop discards, and the flags of the remaining locks).  The
model returns the flat list of the loop's observable actions, or none if
the outcome list is exhausted before an iteration succeeds. -/

structure IterOutcome where
  first : Bool
  rest : List Bool
  deriving DecidableEq, Repr

/-- The restart flag trylockThem(tail...) computes: the |= fold of the interrupted flags
of all locks after the first (trylockOne's flag for the first lock is
discarded, octet-private.hpp line 86). -/
def restartOf (o : IterOutcome) : Bool := o.rest.foldl (fun a b => a || b) false

inductive LEv where
  | attempt (o : IterOutcome)
  | handleRequests (b : Bool)
  | sleepFor (us : Nat)
  | unblock
  deriving DecidableEq, Repr

def OCTET_BACKOFF_RETRIES : Nat := 5

def OCTET_BACKOFF_EXPLIMIT : Nat := 13

/-- The do/while loop of lock() (octet-private.hpp lines 64-103), with
loop counters retries and us; BACKOFF_RETRIES = 5 and
MAX_BACKOFF = BACKOFF_RETRIES + OCTET_BACKOFF_EXPLIMIT = 18. -/
def lockLoop : List IterOutcome → Nat → Nat → Option (List LEv)
  | [], _, _ => none
  | o :: os, retries, us =>
      if restartOf o = true then
        let retries1 := retries + 1
        if retries1 > OCTET_BACKOFF_RETRIES then
          let us1 :=
            if retries1 < OCTET_BACKOFF_RETRIES + OCTET_BACKOFF_EXPLIMIT then us * 2 else us
          match lockLoop os retries1 us1 with
          | none => none
          | some tr =>
              some (LEv.attempt o :: LEv.handleRequests true ::
                LEv.sleepFor us1 :: LEv.unblock :: tr)
        else
          match lockLoop os retries1 us with
          | none => none
          | some tr => some (LEv.attempt o :: tr)
      else some [LEv.attempt o]

/-- Modelled from the spec (spec §4.7 and §9 backoff constants): the delay
slept after the k-th consecutive failed iteration is 1 microsecond
doubled once per retry count from 6 up to 17, capping at 2^12. -/
def delaySpec (k : Nat) : Nat := 2 ^ (min k 17 - 5)

/-- Modelled from the spec (spec §4.7 pseudocode): the loop's reference
trace.  Iterations repeat until the combined interrupted flag of the
locks after the first is false; after the k-th consecutive failed
iteration, once k exceeds BACKOFF_THRESHOLD = 5 the thread calls
handleRequests(true), sleeps delaySpec k microseconds, and unblocks. -/
def specTrace : List IterOutcome → Nat → Option (List LEv)
  | [], _ => none
  | o :: os, k =>
      if restartOf o = true then
        match specTrace os (k + 1) with
        | none => none
        | some tr =>
            some (LEv.attempt o ::
              (if k + 1 > 5 then
                [LEv.handleRequests true, LEv.sleepFor (delaySpec (k + 1)), LEv.unblock]
               else []) ++ tr)
      else some [LEv.attempt o]

/-! ### Interleaved model of one OctetThreadInfo

The two atomic words of a single OctetThreadInfo, acted on concurrently by
the owning thread (handleRequests — split into its two atomic accesses,
the requests_.fetch_or and the responses_.store — and unblock) and by peer
threads (ping's fetch_add of 2).  `pending` records that the owner sits
between the fetch_or and the store, carrying the prior word the fetch_or
returned.  Steps carry the source's assertions as guards (a run that
fails an assert aborts instead of continuing). -/

structure TIState where
  requests : Nat
  responses : Nat
  pending : Option Nat
  deriving DecidableEq, Repr

/-- The state right after the constructor OctetThreadInfo(startBlocked). -/
def TIState.start (startBlocked : Bool) : TIState :=
  { requests := if startBlocked then 1 else 0, responses := 0, pending := none }

inductive TIStep : TIState → TIState → Prop
  /-- The owner's requests_.fetch_or(shouldBlock) in handleRequests;
  the assertion assert(!(req & 1)) requires the prior blocked bit clear. -/
  | fetchOr (s : TIState) (b : Bool) (hpc : s.pending = none)
      (hassert : s.requests % 2 = 0) :
      TIStep s { requests := s.requests ||| (if b then 1 else 0),
                 responses := s.responses, pending := some s.requests }
  /-- The owner's release store of request_count = req >> 1 into responses_. -/
  | storeResponses (s : TIState) (req : Nat) (hpc : s.pending = some req) :
      TIStep s { requests := s.requests, responses := req / 2, pending := none }
  /-- The owner's unblock(): requests_.fetch_and(~1). -/
  | unblockStep (s : TIState) (hpc : s.pending = none) :
      TIStep s { requests := s.requests - s.requests % 2,
                 responses := s.responses, pending := none }
  /-- A peer's ping: requests_ += 2 on the 32-bit word, guarded by the
  overflow assertion assert(req < 2147483644). -/
  | pingStep (s : TIState)
      (hassert : (s.requests + 2) % W32 < 2147483644) :
      TIStep s { requests := (s.requests + 2) % W32,
                 responses := s.responses, pending := s.pending }

/-- All interleavings of the counter operations from construction. -/
def TIReachable (startBlocked : Bool) (s : TIState) : Prop :=
  Relation.ReflTransGen TIStep (TIState.start startBlocked) s

/-! ### Global protocol model (all threads, all locks)

A small-step interleaving semantics of the library compiled with
READSHARED = 0: every thread executes client code that may call
writeLock (= writeBarrier, also through the variadic lock()),
forceUnlock, yield, and the blocked backoff sequence handleRequests(true)
/ sleep / unblock, against the shared lock words and the per-thread
counter words.  Each step is one atomic access of the source (or a local
control transition); handleRequests is two atomic accesses and is split
accordingly.  Thread identifiers are Nat; identifier 0 stands for the
sentinel ("dead thread") ThreadInfo returned by noThreadInfo(), which is
constructed permanently blocked and executes no code, so steps exist only
for threads t ≠ 0.  The lock word is the tagged-pointer encoding in
inductive form: rdsh and intermediate are the two reserved values, wrex t
and rdex t carry the owning thread with the read/write tag bit.

The ghost field `hold` renders the claim's "completed write_lock(L) whose
matching subsequent operation has not yet occurred": it is set to the
lock at the completion of a barrier (the fast-path return, or the
terminal store of the slow path) and cleared at every matching subsequent
operation — the fetch_or of every handleRequests (yield, the blocked
backoff, and the handleRequests calls inside both wait loops), at
forceUnlock, and at the completion of a barrier on a different lock
(which overwrites it). -/

inductive LState where
  | rdsh
  | intermediate
  | wrex (t : Nat)
  | rdex (t : Nat)
  deriving DecidableEq, Repr

/-- The macro GET_TID on the inductive form: mask the tag bit; the two reserved
values mask to the null pointer (no owner). -/
def LState.ownerOf : LState → Option Nat
  | .rdsh => none
  | .intermediate => none
  | .wrex t => some t
  | .rdex t => some t

/-- Program points of one thread.  spinTry/spinHR/spinMid walk the
lockIntermediate loop (octet.cpp 183-226); gotInt holds the prior value
its successful CAS returned; awaitTry/awaitHR/awaitMid walk the
awaitResponse loop (octet.cpp 270-295); wsStore is the terminal store of
writeSlowPath (octet.cpp 410); yieldMid / blockMid are the window between
the two atomic accesses of handleRequests, and sleeping the window
between handleRequests(true) and unblock() in the backoff of lock()
(octet-private.hpp 93-100); fuTry holds the value forceUnlock loaded
before its compare_exchange_strong (octet.cpp 540-559). -/
inductive PC where
  | idle
  | spinTry (L : Nat)
  | spinHR (L : Nat)
  | spinMid (L : Nat) (r : Nat)
  | gotInt (L : Nat) (prev : LState)
  | awaitTry (L : Nat) (w : Nat) (c : Nat)
  | awaitHR (L : Nat) (w : Nat) (c : Nat)
  | awaitMid (L : Nat) (w : Nat) (c : Nat) (r : Nat)
  | wsStore (L : Nat)
  | yieldMid (r : Nat)
  | blockMid (r : Nat)
  | sleeping
  | fuTry (L : Nat) (v : LState)
  deriving DecidableEq, Repr

/-- Pointwise update of a map. -/
def upd {α : Type} (f : Nat → α) (x : Nat) (v : α) : Nat → α :=
  fun y => if y = x then v else f y

structure Sys where
  word : Nat → LState
  req : Nat → Nat
  resp : Nat → Nat
  pc : Nat → PC
  hold : Nat → Option Nat

/-- The initial system: every lock fresh (WrEx(sentinel)), every thread
constructed unblocked and idle, the sentinel constructed blocked and
asleep forever. -/
def Sys.start : Sys :=
  { word := fun _ => .wrex 0
    req := fun t => if t = 0 then 1 else 0
    resp := fun _ => 0
    pc := fun t => if t = 0 then .sleeping else .idle
    hold := fun _ => none }

/-- One atomic step of thread t (t ≠ 0 is enforced in SysStep).  Guards
written `% 2 = 0` / `< 2147483644` are the source's assertions: a run
that fails one aborts instead of stepping. -/
inductive Step (t : Nat) (s : Sys) : Sys → Prop
  /-- The writeBarrier fast path: the relaxed load sees WREX(self); the
  barrier completes, establishing the hold. -/
  | wbFast (L : Nat) (hpc : s.pc t = .idle) (hw : s.word L = .wrex t) :
      Step t s { s with hold := upd s.hold t (some L) }
  /-- The writeBarrier slow path: the load sees anything else and
  writeSlowPath / lockIntermediate is entered. -/
  | wbSlow (L : Nat) (hpc : s.pc t = .idle) (hw : s.word L ≠ .wrex t) :
      Step t s { s with pc := upd s.pc t (.spinTry L) }
  /-- In lockIntermediate: the load sees a non-INTERMEDIATE value and the
  compare_exchange_weak from it succeeds, returning the prior value. -/
  | casOk (L : Nat) (hpc : s.pc t = .spinTry L) (hw : s.word L ≠ .intermediate) :
      Step t s { s with word := upd s.word L .intermediate,
                        pc := upd s.pc t (.gotInt L (s.word L)) }
  /-- In lockIntermediate: the load saw INTERMEDIATE, or the weak CAS
  failed; enter the spin body (std::this_thread::yield is invisible). -/
  | casSpin (L : Nat) (hpc : s.pc t = .spinTry L) :
      Step t s { s with pc := upd s.pc t (.spinHR L) }
  /-- The handleRequests(false) inside the lockIntermediate spin: the
  fetch_or (the or with 0 leaves the word unchanged).  This is a matching
  operation: the hold is released. -/
  | spinHR1 (L : Nat) (hpc : s.pc t = .spinHR L) (hassert : s.req t % 2 = 0) :
      Step t s { s with req := upd s.req t (s.req t ||| 0),
                        pc := upd s.pc t (.spinMid L (s.req t)),
                        hold := upd s.hold t none }
  /-- Then its store of req >> 1 into responses_. -/
  | spinHR2 (L r : Nat) (hpc : s.pc t = .spinMid L r) :
      Step t s { s with resp := upd s.resp t (r / 2),
                        pc := upd s.pc t (.spinTry L) }
  /-- In writeSlowPath after lockIntermediate, owner ≠ self: ping the owner
  (fetch_add 2 on its requests word) and branch on owner_was_blocked:
  straight to the terminal store if the owner was blocked, otherwise into
  awaitResponse with the required response count. -/
  | pingStep (L : Nat) (prev : LState) (w : Nat)
      (hpc : s.pc t = .gotInt L prev) (how : prev.ownerOf = some w) (hwt : w ≠ t)
      (hassert : (s.req w + 2) % W32 < 2147483644) :
      Step t s { s with req := upd s.req w ((s.req w + 2) % W32),
                        pc := upd s.pc t
                          (if (s.req w + 2) % W32 % 2 = 1 then .wsStore L
                           else .awaitTry L w (((s.req w + 2) % W32) / 2)) }
  /-- In writeSlowPath after lockIntermediate, owner = self (the upgrade
  branch): no ping; the assert(prevLock = RDEX(myThreadInfo)) only writes
  the dead local prevLock. -/
  | selfOwner (L : Nat) (prev : LState)
      (hpc : s.pc t = .gotInt L prev) (how : prev.ownerOf = some t) :
      Step t s { s with pc := upd s.pc t (.wsStore L) }
  /-- In awaitResponse: the acquire load sees the required count. -/
  | awaitDone (L w c : Nat) (hpc : s.pc t = .awaitTry L w c) (hresp : s.resp w ≥ c) :
      Step t s { s with pc := upd s.pc t (.wsStore L) }
  /-- In awaitResponse: keep waiting; enter the spin body. -/
  | awaitSpin (L w c : Nat) (hpc : s.pc t = .awaitTry L w c) :
      Step t s { s with pc := upd s.pc t (.awaitHR L w c) }
  /-- The handleRequests(false) inside the awaitResponse spin: the fetch_or;
  the hold is released. -/
  | awaitHR1 (L w c : Nat) (hpc : s.pc t = .awaitHR L w c) (hassert : s.req t % 2 = 0) :
      Step t s { s with req := upd s.req t (s.req t ||| 0),
                        pc := upd s.pc t (.awaitMid L w c (s.req t)),
                        hold := upd s.hold t none }
  /-- Then its store. -/
  | awaitHR2 (L w c r : Nat) (hpc : s.pc t = .awaitMid L w c r) :
      Step t s { s with resp := upd s.resp t (r / 2),
                        pc := upd s.pc t (.awaitTry L w c) }
  /-- The terminal store of writeSlowPath, WREX(self): the barrier
  completes, establishing the hold. -/
  | wsStoreStep (L : Nat) (hpc : s.pc t = .wsStore L) :
      Step t s { s with word := upd s.word L (.wrex t),
                        pc := upd s.pc t .idle,
                        hold := upd s.hold t (some L) }
  /-- The yield() call: handleRequests(false) from client code; the fetch_or. -/
  | yield1 (hpc : s.pc t = .idle) (hassert : s.req t % 2 = 0) :
      Step t s { s with req := upd s.req t (s.req t ||| 0),
                        pc := upd s.pc t (.yieldMid (s.req t)),
                        hold := upd s.hold t none }
  /-- Then its store. -/
  | yield2 (r : Nat) (hpc : s.pc t = .yieldMid r) :
      Step t s { s with resp := upd s.resp t (r / 2),
                        pc := upd s.pc t .idle }
  /-- The backoff of lock() (or shutdownPerthread): handleRequests(true);
  the fetch_or sets the blocked bit. -/
  | block1 (hpc : s.pc t = .idle) (hassert : s.req t % 2 = 0) :
      Step t s { s with req := upd s.req t (s.req t ||| 1),
                        pc := upd s.pc t (.blockMid (s.req t)),
                        hold := upd s.hold t none }
  /-- Then its store; the thread then sleeps. -/
  | block2 (r : Nat) (hpc : s.pc t = .blockMid r) :
      Step t s { s with resp := upd s.resp t (r / 2),
                        pc := upd s.pc t .sleeping }
  /-- The unblock() after the sleep: fetch_and(~1). -/
  | unblockStep (hpc : s.pc t = .sleeping) :
      Step t s { s with req := upd s.req t (s.req t - s.req t % 2),
                        pc := upd s.pc t .idle }
  /-- In forceUnlock: the relaxed load of the word. -/
  | fuLoad (L : Nat) (hpc : s.pc t = .idle) :
      Step t s { s with pc := upd s.pc t (.fuTry L (s.word L)) }
  /-- In forceUnlock: if the loaded value's tagged ThreadInfo is self, the
  compare_exchange_strong to WREX(sentinel), which writes only if the word
  is still the loaded value; in every other case no write.  forceUnlock is
  a matching operation: the hold is released. -/
  | fuCas (L : Nat) (v : LState) (hpc : s.pc t = .fuTry L v) :
      Step t s { s with word := if v.ownerOf = some t ∧ s.word L = v
                          then upd s.word L (.wrex 0) else s.word,
                        pc := upd s.pc t .idle,
                        hold := upd s.hold t none }

/-- The system relation: some client thread (never the sentinel) steps. -/
def SysStep (a b : Sys) : Prop := ∃ t, t ≠ 0 ∧ Step t a b

def SysReachable (s : Sys) : Prop := Relation.ReflTransGen SysStep Sys.start s

/-- Thread u is inside the intermediate section of lock L when its
program point is one of these: it installed INTERMEDIATE (casOk) and has
not yet performed the terminal store. -/
def pcInSec (p : PC) (L : Nat) : Prop :=
  match p with
  | .gotInt L' _ => L' = L
  | .awaitTry L' _ _ => L' = L
  | .awaitHR L' _ _ => L' = L
  | .awaitMid L' _ _ _ => L' = L
  | .wsStore L' => L' = L
  | _ => False

def inSec (s : Sys) (u L : Nat) : Prop := pcInSec (s.pc u) L

/-- The prior requests word carried between the two atomic accesses of a
handleRequests, read off the program point. -/
def midReq : PC → Option Nat
  | .spinMid _ r => some r
  | .awaitMid _ _ _ r => some r
  | .yieldMid r => some r
  | .blockMid r => some r
  | _ => none

/-- Program points of the lockIntermediate loop for lock L (pre-section). -/
def pcSpin (p : PC) (L : Nat) : Prop :=
  match p with
  | .spinTry L' => L' = L
  | .spinHR L' => L' = L
  | .spinMid L' _ => L' = L
  | _ => False

/-- Program points of a thread whose blocked bit is set: between the
fetch_or of handleRequests(true) and the unblock(). -/
def pcBlocked (p : PC) : Prop :=
  match p with
  | .blockMid _ => True
  | .sleeping => True
  | _ => False

/-- A thread at program point p, inside the intermediate section of L,
still owes its handoff to the prior owner x: it has not pinged yet (the
prior value it will ping carries owner x), or it is awaiting a response
count that x's responses word rx has not reached. -/
def pcSecWait (p : PC) (x L rx : Nat) : Prop :=
  match p with
  | .gotInt L' prev => L' = L ∧ prev.ownerOf = some x
  | .awaitTry L' x' c => L' = L ∧ x' = x ∧ rx < c
  | .awaitHR L' x' c => L' = L ∧ x' = x ∧ rx < c
  | .awaitMid L' x' c _ => L' = L ∧ x' = x ∧ rx < c
  | _ => False

def SecWait (s : Sys) (u x L : Nat) : Prop := pcSecWait (s.pc u) x L (s.resp x)

/-- The inductive invariant of the protocol. -/
structure Inv (s : Sys) : Prop where
  secUnique : ∀ L u v, inSec s u L → inSec s v L → u = v
  wordSec : ∀ L, s.word L = .intermediate ↔ ∃ u, inSec s u L
  respBound : ∀ t, s.resp t ≤ s.req t / 2
  reqBound : ∀ t, s.req t < 2147483644
  midBound : ∀ t r, midReq (s.pc t) = some r → r ≤ s.req t
  blockedPc : ∀ t, s.req t % 2 = 1 → pcBlocked (s.pc t)
  blockedHold : ∀ t, pcBlocked (s.pc t) → s.hold t = none
  holdNotMid : ∀ t L, s.hold t = some L → midReq (s.pc t) = none
  secNotHold : ∀ u L, inSec s u L → s.hold u ≠ some L
  spinWord : ∀ u L, pcSpin (s.pc u) L → s.word L ≠ .wrex u
  holdChar : ∀ t L, s.hold t = some L →
      s.word L = .wrex t ∨ ∃ u, inSec s u L ∧ SecWait s u t L
  wsNoHold : ∀ u L, s.pc u = .wsStore L → ∀ x, s.hold x ≠ some L
  sentinelPc : s.pc 0 = .sleeping

/-! ### Theorems -/

/-! #### Bit-level helpers

The source packs a 31-bit counter and a 1-bit flag into one 32-bit word:
the blocked flag is the low bit (`& 1`), the count is the rest (`>> 1`).
These lemmas relate the C bit operations `| 1`, `| 0`, `& ~1` to division
and remainder on Nat. -/

theorem testBit_one_succ (i : Nat) : Nat.testBit 1 (i + 1) = false := by
  simp [Nat.testBit_succ]

theorem lor_one_eq (x : Nat) : x ||| 1 = 2 * (x / 2) + 1 := by
  apply Nat.eq_of_testBit_eq
  intro i
  cases i with
  | zero =>
      have h1 : (2 * (x / 2) + 1) % 2 = 1 := by omega
      simp [Nat.testBit_lor, Nat.testBit_zero, h1]
  | succ j =>
      rw [Nat.testBit_lor, testBit_one_succ, Bool.or_false,
        Nat.testBit_succ, Nat.testBit_succ]
      congr 1
      omega

theorem lor_one_div_two (x : Nat) : (x ||| 1) / 2 = x / 2 := by
  rw [lor_one_eq]; omega

theorem lor_one_mod_two (x : Nat) : (x ||| 1) % 2 = 1 := by
  rw [lor_one_eq]; omega

theorem le_lor_one (x : Nat) : x ≤ x ||| 1 := by
  rw [lor_one_eq]; omega

/-! #### Claim C4 -/

/-- Claim C4: for every ThreadInfo and every boolean shouldBlock,
handleRequests(shouldBlock) ORs shouldBlock into the low (blocked) bit of
requests_ and reads the prior word req; under the precondition of its
assertion (the prior low bit is clear), it stores req >> 1 into
responses_, so afterwards responses_ equals the request count observed at
the fetch-or, and the request count itself is unchanged. -/
theorem handleRequests_spec (t : TInfo) (b : Bool)
    (h : t.handleRequestsAssertOk) :
    (t.handleRequests b).requests = (t.requests ||| (if b then 1 else 0)) ∧
    (t.handleRequests b).responses = t.requests / 2 ∧
    (t.handleRequests b).requests / 2 = t.requests / 2 := by
  refine ⟨rfl, rfl, ?_⟩
  cases b with
  | false => simp [TInfo.handleRequests]
  | true => simp [TInfo.handleRequests, lor_one_div_two]

theorem handleRequests_spec_witness :
    (TInfo.mk0 false).handleRequestsAssertOk ∧
    ((TInfo.mk0 false).handleRequests true).requests =
      ((TInfo.mk0 false).requests ||| 1) ∧
    ((TInfo.mk0 false).handleRequests true).responses = (TInfo.mk0 false).requests / 2 ∧
    ((TInfo.mk0 false).handleRequests true).requests / 2 = (TInfo.mk0 false).requests / 2 := by
  have h : (TInfo.mk0 false).handleRequestsAssertOk := by
    simp [TInfo.mk0, TInfo.handleRequestsAssertOk]
  exact ⟨h, handleRequests_spec (TInfo.mk0 false) true h⟩

/-! #### Claim C6 -/

/-- Claim C6: for every owner ThreadInfo whose request word holds `prior`
before the call, with prior + 2 below 2^31 - 4 (the counter-overflow bound
checked by the assertion), ping(owner) adds exactly 2 to owner.requests_
(leaving the blocked bit unchanged), returns (prior + 2) >> 1 as the
required response count, and reports owner_was_blocked = (prior & 1). -/
theorem ping_spec (owner : TInfo) (h : owner.requests + 2 < 2147483644) :
    (ping owner).1.requests = owner.requests + 2 ∧
    (ping owner).1.requests % 2 = owner.requests % 2 ∧
    (ping owner).1.responses = owner.responses ∧
    (ping owner).2.1 = (owner.requests + 2) / 2 ∧
    (ping owner).2.2 = (owner.requests % 2 == 1) := by
  have hm : (owner.requests + 2) % W32 = owner.requests + 2 := by
    apply Nat.mod_eq_of_lt
    have : (2147483644 : Nat) < W32 := by norm_num [W32]
    omega
  refine ⟨?_, ?_, rfl, ?_, ?_⟩
  · simp [ping, hm]
  · simp [ping, hm]
  · simp [ping, hm]
  · simp only [ping, hm]
    have : (owner.requests + 2) % 2 = owner.requests % 2 := by omega
    rw [this]

theorem ping_spec_witness :
    (⟨7, 3⟩ : TInfo).requests + 2 < 2147483644 ∧
    ((ping ⟨7, 3⟩).1.requests = (⟨7, 3⟩ : TInfo).requests + 2 ∧
     (ping ⟨7, 3⟩).1.requests % 2 = (⟨7, 3⟩ : TInfo).requests % 2 ∧
     (ping ⟨7, 3⟩).1.responses = (⟨7, 3⟩ : TInfo).responses ∧
     (ping ⟨7, 3⟩).2.1 = ((⟨7, 3⟩ : TInfo).requests + 2) / 2 ∧
     (ping ⟨7, 3⟩).2.2 = ((⟨7, 3⟩ : TInfo).requests % 2 == 1)) :=
  ⟨by norm_num, ping_spec ⟨7, 3⟩ (by norm_num)⟩

/-! #### Plumbing: the executing thread's identity is never overwritten -/

theorem foldl_setT_self (l : List (Nat × TInfo)) (s : MState) :
    (l.foldl (fun st p => st.setT p.1 p.2) s).self = s.self := by
  induction l generalizing s with
  | nil => rfl
  | cons p rest ih => exact ih (s.setT p.1 p.2)

theorem applyInterf_self (s : MState) (i : Interf) :
    (applyInterf s i).self = s.self :=
  foldl_setT_self i.heap s

theorem lockIntermediate_self :
    ∀ (env : List Interf) (s : MState) (prev : Nat) (s' : MState) (tr : List SEv),
      lockIntermediate s env = some (prev, s', tr) → s'.self = s.self := by
  intro env
  induction env with
  | nil =>
      intro s prev s' tr h
      simp only [lockIntermediate] at h
      split at h
      · simp only [Option.some.injEq, Prod.mk.injEq] at h
        obtain ⟨-, h2, -⟩ := h
        rw [← h2]
      · exact absurd h (by simp)
  | cons i rest ih =>
      intro s prev s' tr h
      simp only [lockIntermediate] at h
      cases hrec : lockIntermediate (applyInterf (s.selfHR false) i) rest with
      | none => rw [hrec] at h; exact absurd h (by simp)
      | some out =>
          obtain ⟨p, s1, tr1⟩ := out
          rw [hrec] at h
          simp only [Option.some.injEq, Prod.mk.injEq] at h
          obtain ⟨-, h2, -⟩ := h
          rw [← h2]
          rw [ih _ _ _ _ hrec, applyInterf_self]
          rfl

theorem awaitResponse_self :
    ∀ (env : List Interf) (s : MState) (a c : Nat) (s' : MState) (tr : List SEv),
      awaitResponse s a c env = some (s', tr) → s'.self = s.self := by
  intro env
  induction env with
  | nil =>
      intro s a c s' tr h
      simp only [awaitResponse] at h
      split at h
      · simp only [Option.some.injEq, Prod.mk.injEq] at h
        rw [← h.1]
      · exact absurd h (by simp)
  | cons i rest ih =>
      intro s a c s' tr h
      simp only [awaitResponse] at h
      split at h
      · simp only [Option.some.injEq, Prod.mk.injEq] at h
        rw [← h.1]
      · cases hrec : awaitResponse (applyInterf (s.selfHR false) i) a c rest with
        | none => rw [hrec] at h; exact absurd h (by simp)
        | some out =>
            obtain ⟨s1, tr1⟩ := out
            rw [hrec] at h
            simp only [Option.some.injEq, Prod.mk.injEq] at h
            rw [← h.1]
            rw [ih _ _ _ _ _ hrec, applyInterf_self]
            rfl

theorem notifyOne_self (s : MState) (a : Nat) (env : List Interf)
    (s' : MState) (tr : List SEv) (h : notifyOne s a env = some (s', tr)) :
    s'.self = s.self := by
  simp only [notifyOne] at h
  split at h
  · simp only [Option.some.injEq, Prod.mk.injEq] at h
    rw [← h.1]
    rfl
  · cases hrec : awaitResponse (s.setT a (ping (s.tinfo a)).1) a (ping (s.tinfo a)).2.1 env with
    | none => rw [hrec] at h; exact absurd h (by simp)
    | some out =>
        obtain ⟨s2, tr2⟩ := out
        rw [hrec] at h
        simp only [Option.some.injEq, Prod.mk.injEq] at h
        rw [← h.1]
        rw [awaitResponse_self _ _ _ _ _ _ hrec]
        rfl

/-! #### Claim C3 -/

/-- Claim C3: for every lock whose state word currently equals WrEx(self)
for the calling thread, writeBarrier returns false and leaves the whole
state (lock word and both counters) unchanged; for every other observed
state it delegates to writeSlowPath and returns its result.  A fast-path
barrier therefore always returns interrupted = false. -/
theorem writeBarrier_spec (s : MState) (envLI envAR : List Interf) :
    (s.word = WREX s.self → writeBarrier s envLI envAR = some (false, s, [])) ∧
    (s.word ≠ WREX s.self → writeBarrier s envLI envAR = writeSlowPath s envLI envAR) := by
  constructor
  · intro h
    simp [writeBarrier, h]
  · intro h
    simp [writeBarrier, h]

theorem writeBarrier_spec_witness :
    (MState.mk 2 (fun _ => ⟨0, 0⟩) 2).word = WREX (MState.mk 2 (fun _ => ⟨0, 0⟩) 2).self ∧
    writeBarrier (MState.mk 2 (fun _ => ⟨0, 0⟩) 2) [] [] =
      some (false, MState.mk 2 (fun _ => ⟨0, 0⟩) 2, []) :=
  ⟨rfl, (writeBarrier_spec (MState.mk 2 (fun _ => ⟨0, 0⟩) 2) [] []).1 rfl⟩

/-! #### Claim C9 -/

/-- Claim C9: for every lock, if the state word's tagged ThreadInfo (low
bit masked off) does not equal the caller's myThreadInfo — which includes
the RdSh and Intermediate encodings, whose masked value is null — then
forceUnlock leaves the lock word unchanged and does not fail; if it does
equal the caller, forceUnlock attempts a single compare-exchange-strong to
WrEx(sentinel), and on CAS failure the lock word is likewise left as the
concurrent modifier set it (`mid` is the word's value at CAS time). -/
theorem forceUnlock_spec (s : MState) (nti mid : Nat) (hself : s.self ≠ 0) :
    (GET_TID RDSH = 0 ∧ GET_TID INTERMEDIATE = 0) ∧
    ((s.word = RDSH ∨ s.word = INTERMEDIATE) → forceUnlock s nti s.word = s) ∧
    (GET_TID s.word ≠ s.self → forceUnlock s nti s.word = s) ∧
    (GET_TID s.word ≠ s.self → forceUnlock s nti mid = { s with word := mid }) ∧
    (GET_TID s.word = s.self → mid ≠ s.word → forceUnlock s nti mid = { s with word := mid }) ∧
    (GET_TID s.word = s.self → mid = s.word → forceUnlock s nti mid = { s with word := WREX nti }) := by
  refine ⟨⟨rfl, rfl⟩, ?_, ?_, ?_, ?_, ?_⟩
  · intro h
    have htid : GET_TID s.word ≠ s.self := by
      rcases h with h | h <;> rw [h] <;>
        simpa [GET_TID, RDSH, INTERMEDIATE] using Ne.symm hself
    simp [forceUnlock, htid]
  · intro h
    simp [forceUnlock, h]
  · intro h
    simp [forceUnlock, h]
  · intro h hne
    simp [forceUnlock, h, hne]
  · intro h he
    simp [forceUnlock, h, he]

theorem forceUnlock_spec_witness :
    (MState.mk 5 (fun _ => ⟨0, 0⟩) 2).self ≠ 0 ∧
    (GET_TID (MState.mk 5 (fun _ => ⟨0, 0⟩) 2).word ≠ (MState.mk 5 (fun _ => ⟨0, 0⟩) 2).self ∧
     forceUnlock (MState.mk 5 (fun _ => ⟨0, 0⟩) 2) 6 5 = MState.mk 5 (fun _ => ⟨0, 0⟩) 2) := by
  have h := forceUnlock_spec (MState.mk 5 (fun _ => ⟨0, 0⟩) 2) 6 5 (by decide)
  exact ⟨by decide, by decide, h.2.2.1 (by decide)⟩

/-! #### Claim C10 -/

/-- Claim C10: in the write slow path, whenever the prior value returned
by lockIntermediate has a tagged ThreadInfo equal to the calling thread,
that prior value equals RdEx(self) — the equality the assertion in that
branch is intended to check — and the slow path performs no ping in this
case before installing WrEx(self) (its event trace is empty: no pinged,
awaited or hreq event).  The hypotheses record that myThreadInfo is a
2-byte aligned non-null pointer and that writeBarrier enters the slow path
only when the loaded word differs from WrEx(self). -/
theorem writeSlowPath_selfOwner (s : MState)
    (heven : s.self % 2 = 0) (hnn : s.self ≠ 0)
    (hslow : s.word ≠ WREX s.self) (htid : GET_TID s.word = s.self) :
    s.word = RDEX s.self ∧
    lockIntermediate s [] = some (s.word, { s with word := INTERMEDIATE }, []) ∧
    writeSlowPath s [] [] = some (false, { s with word := WREX s.self }, []) := by
  have hw : s.word = s.self + 1 := by
    have h2 := htid
    unfold GET_TID at h2
    rcases Nat.mod_two_eq_zero_or_one s.word with h0 | h1
    · exact absurd (show s.word = WREX s.self by unfold WREX; omega) hslow
    · omega
  have hrd : RDEX s.self = s.self + 1 := by
    unfold RDEX; rw [lor_one_eq]; omega
  have hni : s.word ≠ INTERMEDIATE := by
    unfold INTERMEDIATE at *; omega
  have hli : lockIntermediate s [] = some (s.word, { s with word := INTERMEDIATE }, []) := by
    simp [lockIntermediate, hni]
  refine ⟨by rw [hw, hrd], hli, ?_⟩
  simp only [writeSlowPath, hli]
  have hself1 : ({ s with word := INTERMEDIATE } : MState).self = s.self := rfl
  simp [hself1, htid]

theorem writeSlowPath_selfOwner_witness :
    ((MState.mk 3 (fun _ => ⟨0, 0⟩) 2).self % 2 = 0 ∧
     (MState.mk 3 (fun _ => ⟨0, 0⟩) 2).self ≠ 0 ∧
     (MState.mk 3 (fun _ => ⟨0, 0⟩) 2).word ≠ WREX (MState.mk 3 (fun _ => ⟨0, 0⟩) 2).self ∧
     GET_TID (MState.mk 3 (fun _ => ⟨0, 0⟩) 2).word = (MState.mk 3 (fun _ => ⟨0, 0⟩) 2).self) ∧
    (MState.mk 3 (fun _ => ⟨0, 0⟩) 2).word = RDEX (MState.mk 3 (fun _ => ⟨0, 0⟩) 2).self ∧
    writeSlowPath (MState.mk 3 (fun _ => ⟨0, 0⟩) 2) [] [] =
      some (false, { MState.mk 3 (fun _ => ⟨0, 0⟩) 2 with word := WREX 2 }, []) := by
  have h := writeSlowPath_selfOwner (MState.mk 3 (fun _ => ⟨0, 0⟩) 2)
    (by decide) (by decide) (by decide) (by decide)
  exact ⟨⟨by decide, by decide, by decide, by decide⟩, h.1, h.2.2⟩

/-! #### Claim C2 -/

theorem lockIntermediate_out :
    ∀ (env : List Interf) (s : MState) (prev : Nat) (s' : MState) (tr : List SEv),
      lockIntermediate s env = some (prev, s', tr) →
      prev ≠ INTERMEDIATE ∧ s'.word = INTERMEDIATE := by
  intro env
  induction env with
  | nil =>
      intro s prev s' tr h
      simp only [lockIntermediate] at h
      split at h
      · rename_i hw
        simp only [Option.some.injEq, Prod.mk.injEq] at h
        obtain ⟨h1, h2, -⟩ := h
        subst h1
        exact ⟨hw, by rw [← h2]⟩
      · exact absurd h (by simp)
  | cons i rest ih =>
      intro s prev s' tr h
      simp only [lockIntermediate] at h
      cases hrec : lockIntermediate (applyInterf (s.selfHR false) i) rest with
      | none => rw [hrec] at h; exact absurd h (by simp)
      | some out =>
          obtain ⟨p, s1, tr1⟩ := out
          rw [hrec] at h
          simp only [Option.some.injEq, Prod.mk.injEq] at h
          obtain ⟨h1, h2, -⟩ := h
          subst h1
          rw [← h2]
          exact ih _ _ _ _ hrec

theorem writeSlowPath_out (s : MState) (envLI envAR : List Interf)
    (flag : Bool) (s' : MState) (tr : List SEv)
    (h : writeSlowPath s envLI envAR = some (flag, s', tr)) :
    s'.word = WREX s.self ∧ s'.self = s.self ∧
    flag = ((s.tinfo s.self).responses != (s'.tinfo s'.self).responses) := by
  simp only [writeSlowPath] at h
  cases hli : lockIntermediate s envLI with
  | none => rw [hli] at h; exact absurd h (by simp)
  | some out =>
      obtain ⟨prev, s1, tr1⟩ := out
      rw [hli] at h
      have hs1self : s1.self = s.self := lockIntermediate_self envLI s _ _ _ hli
      simp only [] at h
      by_cases hown : GET_TID prev ≠ s1.self
      · rw [if_pos hown] at h
        cases hno : notifyOne s1 (GET_TID prev) envAR with
        | none => rw [hno] at h; exact absurd h (by simp)
        | some out2 =>
            obtain ⟨s2, tr2⟩ := out2
            rw [hno] at h
            simp only [Option.some.injEq, Prod.mk.injEq] at h
            obtain ⟨hflag, hs, -⟩ := h
            have hs2self : s2.self = s1.self := notifyOne_self s1 _ envAR _ _ hno
            subst hs
            refine ⟨?_, ?_, ?_⟩
            · show WREX s2.self = WREX s.self
              rw [hs2self, hs1self]
            · show s2.self = s.self
              rw [hs2self, hs1self]
            · rw [← hflag]
      · rw [if_neg hown] at h
        simp only [Option.some.injEq, Prod.mk.injEq] at h
        obtain ⟨hflag, hs, -⟩ := h
        subst hs
        refine ⟨?_, ?_, ?_⟩
        · show WREX s1.self = WREX s.self
          rw [hs1self]
        · exact hs1self
        · rw [← hflag]

theorem awaitResponse_total (s : MState) (a c : Nat) :
    ∃ s' tr, awaitResponse s a c [⟨0, [(a, ⟨0, c⟩)]⟩] = some (s', tr) := by
  by_cases hge : (s.tinfo a).responses ≥ c
  · exact ⟨s, [], by simp [awaitResponse, hge]⟩
  · refine ⟨applyInterf (s.selfHR false) ⟨0, [(a, ⟨0, c⟩)]⟩, [SEv.hreq false], ?_⟩
    have hresp : ((applyInterf (s.selfHR false) ⟨0, [(a, ⟨0, c⟩)]⟩).tinfo a).responses = c := by
      simp [applyInterf, MState.setT]
    simp [awaitResponse, hge, hresp]

theorem notifyOne_total (s : MState) (a : Nat) :
    ∃ env s' tr, notifyOne s a env = some (s', tr) := by
  by_cases hb : (ping (s.tinfo a)).2.2
  · exact ⟨[], s.setT a (ping (s.tinfo a)).1, [SEv.pinged a], by simp [notifyOne, hb]⟩
  · obtain ⟨s', tr, hst⟩ :=
      awaitResponse_total (s.setT a (ping (s.tinfo a)).1) a (ping (s.tinfo a)).2.1
    exact ⟨[⟨0, [(a, ⟨0, (ping (s.tinfo a)).2.1⟩)]⟩], s',
      SEv.pinged a :: SEv.awaited a (ping (s.tinfo a)).2.1 :: tr,
      by simp [notifyOne, hb, hst]⟩

/-- Claim C2: whenever the write slow path returns, the lock word equals
WrEx(self) and the returned flag is true exactly when the thread's
responses_ counter sampled at entry differs from the counter sampled at
exit; from any state whose lock word is not INTERMEDIATE the slow path
does terminate for a suitable environment (one in which the pinged owner
eventually advances its response count, the protocol's liveness
assumption); and the value returned by lockIntermediate along the way is
never INTERMEDIATE (while the word it installs is INTERMEDIATE). -/
theorem writeSlowPath_spec :
    (∀ (s : MState) (envLI envAR : List Interf) (flag : Bool) (s' : MState) (tr : List SEv),
        writeSlowPath s envLI envAR = some (flag, s', tr) →
        s'.word = WREX s.self ∧
        flag = ((s.tinfo s.self).responses != (s'.tinfo s'.self).responses)) ∧
    (∀ (env : List Interf) (s : MState) (prev : Nat) (s' : MState) (tr : List SEv),
        lockIntermediate s env = some (prev, s', tr) →
        prev ≠ INTERMEDIATE ∧ s'.word = INTERMEDIATE) ∧
    (∀ s : MState, s.word ≠ INTERMEDIATE →
        ∃ envAR flag s' tr, writeSlowPath s [] envAR = some (flag, s', tr)) := by
  refine ⟨?_, lockIntermediate_out, ?_⟩
  · intro s envLI envAR flag s' tr h
    obtain ⟨h1, -, h3⟩ := writeSlowPath_out s envLI envAR flag s' tr h
    exact ⟨h1, h3⟩
  · intro s hni
    have hli : lockIntermediate s [] = some (s.word, { s with word := INTERMEDIATE }, []) := by
      simp [lockIntermediate, hni]
    have hself1 : ({ s with word := INTERMEDIATE } : MState).self = s.self := rfl
    by_cases hown : GET_TID s.word ≠ ({ s with word := INTERMEDIATE } : MState).self
    · obtain ⟨env, s2, tr2, hno⟩ :=
        notifyOne_total { s with word := INTERMEDIATE } (GET_TID s.word)
      have hrun : writeSlowPath s [] env =
          some ((s.tinfo s.self).responses !=
              ((MState.mk (WREX s2.self) s2.tinfo s2.self).tinfo
                (MState.mk (WREX s2.self) s2.tinfo s2.self).self).responses,
            MState.mk (WREX s2.self) s2.tinfo s2.self, [] ++ tr2) := by
        simp only [writeSlowPath, hli]
        rw [if_pos hown, hno]
      exact ⟨env, _, _, _, hrun⟩
    · have hrun : writeSlowPath s [] [] =
          some ((s.tinfo s.self).responses !=
              ((MState.mk (WREX s.self) s.tinfo s.self).tinfo
                (MState.mk (WREX s.self) s.tinfo s.self).self).responses,
            MState.mk (WREX s.self) s.tinfo s.self, ([] : List SEv)) := by
        simp only [writeSlowPath, hli]
        rw [if_neg hown]
        rfl
      exact ⟨[], _, _, _, hrun⟩

theorem writeSlowPath_spec_witness :
    writeSlowPath (MState.mk 4 (fun _ => ⟨1, 0⟩) 2) [] [] =
      some (false, MState.mk 2 (fun x => if x = 4 then ⟨3, 0⟩ else ⟨1, 0⟩) 2,
        [SEv.pinged 4]) ∧
    (MState.mk 2 (fun x => if x = 4 then ⟨3, 0⟩ else ⟨1, 0⟩) 2).word =
      WREX (MState.mk 4 (fun _ => ⟨1, 0⟩) 2).self :=
  ⟨rfl,
   (writeSlowPath_spec.1 (MState.mk 4 (fun _ => ⟨1, 0⟩) 2) [] [] false
      (MState.mk 2 (fun x => if x = 4 then ⟨3, 0⟩ else ⟨1, 0⟩) 2) [SEv.pinged 4] rfl).1⟩

/-! #### Claim C8 -/

/-- Claim C8: every Lock constructed by Lock::Lock() has its state word
equal to WrEx(sentinel), where the sentinel (noThreadInfo) is the
process-wide ThreadInfo created with its blocked bit set; consequently the
first writeBarrier on a fresh lock by any initialized thread (whose
ThreadInfo address differs from the sentinel's; the sentinel address being
2-byte aligned and non-null) takes the slow path, but because ping reports
the sentinel as blocked, notifyOne skips awaitResponse entirely and the
acquisition succeeds without waiting: the run needs no environment entries,
its trace is exactly one ping (no awaited and no hreq event), it returns
interrupted = false, and it leaves the word WrEx(self). -/
theorem lockInit_firstBarrier (s : MState) (ntiA : Nat)
    (hword : s.word = lockInit ntiA)
    (hnti : s.tinfo ntiA = noThreadInfo)
    (hne : s.self ≠ ntiA)
    (heven : ntiA % 2 = 0) (hnn : ntiA ≠ 0) :
    lockInit ntiA = WREX ntiA ∧
    noThreadInfo.requests % 2 = 1 ∧
    s.word ≠ WREX s.self ∧
    (ping (s.tinfo ntiA)).2.2 = true ∧
    writeBarrier s [] [] =
      some (false,
        MState.mk (WREX s.self)
          (fun x => if x = ntiA then (ping noThreadInfo).1 else s.tinfo x) s.self,
        [SEv.pinged ntiA]) := by
  have hnei : ntiA ≠ s.self := fun hcc => hne hcc.symm
  have hni : s.word ≠ INTERMEDIATE := by
    rw [hword]; unfold lockInit WREX INTERMEDIATE; omega
  have hslow : s.word ≠ WREX s.self := by
    rw [hword]; unfold lockInit WREX; exact hnei
  have htid : GET_TID s.word = ntiA := by
    rw [hword]; unfold lockInit WREX GET_TID; omega
  have hblocked : (ping (s.tinfo ntiA)).2.2 = true := by
    rw [hnti]; rfl
  refine ⟨rfl, rfl, hslow, hblocked, ?_⟩
  have hli : lockIntermediate s [] = some (s.word, { s with word := INTERMEDIATE }, []) := by
    simp [lockIntermediate, hni]
  have hwb : writeBarrier s [] [] = writeSlowPath s [] [] := by
    simp [writeBarrier, hslow]
  rw [hwb]
  simp only [writeSlowPath, hli, htid]
  rw [if_pos (show ntiA ≠ ({ s with word := INTERMEDIATE } : MState).self from hnei)]
  have hb2 : (ping (({ s with word := INTERMEDIATE } : MState).tinfo ntiA)).2.2 = true :=
    hblocked
  simp only [notifyOne, hb2, if_pos]
  simp only [MState.setT, List.nil_append, Option.some.injEq, Prod.mk.injEq]
  refine ⟨?_, ?_, trivial⟩
  · have : ((fun x => if x = ntiA then (ping (s.tinfo ntiA)).1 else s.tinfo x) s.self) =
        s.tinfo s.self := by
      simp [if_neg hne]
    simp [this]
  · simp [hnti]

theorem lockInit_firstBarrier_witness :
    ((MState.mk 4 (fun _ => noThreadInfo) 2).word = lockInit 4 ∧
     (MState.mk 4 (fun _ => noThreadInfo) 2).tinfo 4 = noThreadInfo ∧
     (MState.mk 4 (fun _ => noThreadInfo) 2).self ≠ 4 ∧
     4 % 2 = 0 ∧ (4 : Nat) ≠ 0) ∧
    (MState.mk 4 (fun _ => noThreadInfo) 2).word ≠
      WREX (MState.mk 4 (fun _ => noThreadInfo) 2).self ∧
    (ping ((MState.mk 4 (fun _ => noThreadInfo) 2).tinfo 4)).2.2 = true ∧
    writeBarrier (MState.mk 4 (fun _ => noThreadInfo) 2) [] [] =
      some (false,
        MState.mk (WREX (MState.mk 4 (fun _ => noThreadInfo) 2).self)
          (fun x => if x = 4 then (ping noThreadInfo).1
            else (MState.mk 4 (fun _ => noThreadInfo) 2).tinfo x)
          (MState.mk 4 (fun _ => noThreadInfo) 2).self,
        [SEv.pinged 4]) := by
  have h := lockInit_firstBarrier (MState.mk 4 (fun _ => noThreadInfo) 2) 4
    rfl rfl (by decide) (by decide) (by decide)
  exact ⟨⟨rfl, rfl, by decide, by decide, by decide⟩, h.2.2.1, h.2.2.2.1, h.2.2.2.2⟩

/-! #### Claim C7 -/

theorem delaySpec_zero : delaySpec 0 = 1 := rfl

theorem delaySpec_succ (k : Nat) :
    delaySpec (k + 1) =
      if k + 1 > OCTET_BACKOFF_RETRIES then
        if k + 1 < OCTET_BACKOFF_RETRIES + OCTET_BACKOFF_EXPLIMIT then delaySpec k * 2
        else delaySpec k
      else delaySpec k := by
  unfold delaySpec OCTET_BACKOFF_RETRIES OCTET_BACKOFF_EXPLIMIT
  by_cases h5 : k + 1 > 5
  · by_cases h18 : k + 1 < 18
    · rw [if_pos h5, if_pos h18]
      have h1 : min (k + 1) 17 = k + 1 := by omega
      have h2 : min k 17 = k := by omega
      rw [h1, h2]
      have h3 : k + 1 - 5 = (k - 5) + 1 := by omega
      rw [h3, pow_succ]
    · rw [if_pos h5, if_neg h18]
      have h1 : min (k + 1) 17 = 17 := by omega
      have h2 : min k 17 = 17 := by omega
      rw [h1, h2]
  · rw [if_neg h5]
    have h1 : min (k + 1) 17 - 5 = 0 := by omega
    have h2 : min k 17 - 5 = 0 := by omega
    rw [h1, h2]

theorem lockLoop_eq_specTrace (os : List IterOutcome) :
    ∀ k : Nat, lockLoop os k (delaySpec k) = specTrace os k := by
  induction os with
  | nil => intro k; rfl
  | cons o rest ih =>
      intro k
      simp only [lockLoop, specTrace]
      by_cases hr : restartOf o = true
      · rw [if_pos hr, if_pos hr]
        by_cases h5 : k + 1 > OCTET_BACKOFF_RETRIES
        · rw [if_pos h5]
          have hus : (if k + 1 < OCTET_BACKOFF_RETRIES + OCTET_BACKOFF_EXPLIMIT
              then delaySpec k * 2 else delaySpec k) = delaySpec (k + 1) := by
            rw [delaySpec_succ, if_pos h5]
          rw [hus, ih (k + 1)]
          cases specTrace rest (k + 1) with
          | none => rfl
          | some tr =>
              have h5' : k + 1 > 5 := h5
              simp [h5']
        · rw [if_neg h5]
          have hus : delaySpec k = delaySpec (k + 1) := by
            rw [delaySpec_succ, if_neg h5]
          rw [hus, ih (k + 1)]
          cases specTrace rest (k + 1) with
          | none => rfl
          | some tr =>
              have h5' : ¬ (k + 1 > 5) := h5
              simp [h5']
      · rw [if_neg hr, if_neg hr]

theorem lockLoop_success_shape (os : List IterOutcome) :
    ∀ (k us : Nat) (tr : List LEv), lockLoop os k us = some tr →
      ∃ pre o post, os = pre ++ o :: post ∧ restartOf o = false ∧
        ∀ o' ∈ pre, restartOf o' = true := by
  induction os with
  | nil => intro k us tr h; exact absurd h (by simp [lockLoop])
  | cons o rest ih =>
      intro k us tr h
      simp only [lockLoop] at h
      by_cases hr : restartOf o = true
      · rw [if_pos hr] at h
        by_cases h5 : k + 1 > OCTET_BACKOFF_RETRIES
        · rw [if_pos h5] at h
          cases hrec : lockLoop rest (k + 1)
              (if k + 1 < OCTET_BACKOFF_RETRIES + OCTET_BACKOFF_EXPLIMIT then us * 2 else us) with
          | none => rw [hrec] at h; exact absurd h (by simp)
          | some tr1 =>
              obtain ⟨pre, o1, post, hsplit, hfail, hall⟩ := ih _ _ _ hrec
              refine ⟨o :: pre, o1, post, by rw [hsplit, List.cons_append], hfail, ?_⟩
              intro o' ho'
              rcases List.mem_cons.mp ho' with h1 | h1
              · rw [h1]; exact hr
              · exact hall o' h1
        · rw [if_neg h5] at h
          cases hrec : lockLoop rest (k + 1) us with
          | none => rw [hrec] at h; exact absurd h (by simp)
          | some tr1 =>
              obtain ⟨pre, o1, post, hsplit, hfail, hall⟩ := ih _ _ _ hrec
              refine ⟨o :: pre, o1, post, by rw [hsplit, List.cons_append], hfail, ?_⟩
              intro o' ho'
              rcases List.mem_cons.mp ho' with h1 | h1
              · rw [h1]; exact hr
              · exact hall o' h1
      · rw [if_neg hr] at h
        exact ⟨[], o, rest, rfl, by simpa using hr, by intro o' ho'; cases ho'⟩

/-- Claim C7: the do/while loop of the variadic lock() repeats until an
iteration acquires every listed lock with the combined interrupted flag
of all locks after the first being false (the first lock's flag is
discarded); started with retries = 0 and us = 1 it produces, whenever it
returns, exactly the reference trace modelled from the spec: within a
failing iteration, once the retry count k exceeds 5 the thread calls
handleRequests(true), sleeps the current delay, then calls unblock(), and
the delay starts at 1 microsecond and doubles on each such retry only
while k < 18 = 5 + 13, after which it stops doubling (delaySpec). -/
theorem lock_loop_spec :
    (∀ os : List IterOutcome, lockLoop os 0 1 = specTrace os 0) ∧
    delaySpec 0 = 1 ∧
    (∀ (os : List IterOutcome) (tr : List LEv), lockLoop os 0 1 = some tr →
      ∃ pre o post, os = pre ++ o :: post ∧ restartOf o = false ∧
        ∀ o' ∈ pre, restartOf o' = true) := by
  refine ⟨?_, rfl, ?_⟩
  · intro os
    have h := lockLoop_eq_specTrace os 0
    rw [delaySpec_zero] at h
    exact h
  · intro os tr h
    exact lockLoop_success_shape os 0 1 tr h

theorem lock_loop_spec_witness :
    lockLoop [⟨true, [true]⟩, ⟨false, [false, false]⟩, ⟨true, [true]⟩] 0 1 =
      some [LEv.attempt ⟨true, [true]⟩, LEv.attempt ⟨false, [false, false]⟩] ∧
    ∃ pre o post,
      ([⟨true, [true]⟩, ⟨false, [false, false]⟩, ⟨true, [true]⟩] : List IterOutcome) =
        pre ++ o :: post ∧ restartOf o = false ∧ ∀ o' ∈ pre, restartOf o' = true := by
  constructor
  · rfl
  · exact lock_loop_spec.2.2 [⟨true, [true]⟩, ⟨false, [false, false]⟩, ⟨true, [true]⟩]
      [LEv.attempt ⟨true, [true]⟩, LEv.attempt ⟨false, [false, false]⟩] rfl

/-! #### Claim C5 -/

theorem TIStep_preserves (s s' : TIState) (hst : TIStep s s')
    (h1 : s.requests < 2147483644) (h2 : s.responses ≤ s.requests / 2)
    (h3 : ∀ r, s.pending = some r → r ≤ s.requests) :
    s'.requests < 2147483644 ∧ s'.responses ≤ s'.requests / 2 ∧
      ∀ r, s'.pending = some r → r ≤ s'.requests := by
  cases hst with
  | fetchOr b hpc hassert =>
      dsimp only
      cases b with
      | false =>
          rw [if_neg (by simp : ¬ (false = true)), Nat.or_zero]
          refine ⟨h1, h2, ?_⟩
          intro r hr
          simp only [Option.some.injEq] at hr
          omega
      | true =>
          rw [if_pos rfl, lor_one_eq]
          refine ⟨by omega, by omega, ?_⟩
          intro r hr
          simp only [Option.some.injEq] at hr
          omega
  | storeResponses req hpc =>
      have hr := h3 req hpc
      dsimp only
      refine ⟨h1, ?_, by simp⟩
      calc req / 2 ≤ s.requests / 2 := Nat.div_le_div_right hr
        _ = s.requests / 2 := rfl
  | unblockStep hpc =>
      dsimp only
      refine ⟨by omega, by omega, by simp⟩
  | pingStep hassert =>
      have hmod : (s.requests + 2) % W32 = s.requests + 2 := by
        apply Nat.mod_eq_of_lt
        have : (2147483644 : Nat) + 2 < W32 := by norm_num [W32]
        omega
      rw [hmod] at hassert
      dsimp only
      rw [hmod]
      refine ⟨hassert, by omega, ?_⟩
      intro r hr
      have := h3 r hr
      omega

/-- Claim C5: for every ThreadInfo, the invariant
responses ≤ (requests >> 1) holds at all times: it holds after
construction (responses = 0) and is preserved by every operation that
touches the counters — both atomic accesses of handleRequests, unblock,
and peer pings — in every interleaving of those operations. -/
theorem tinfo_response_bound (startBlocked : Bool) (s : TIState)
    (h : TIReachable startBlocked s) :
    s.responses ≤ s.requests / 2 := by
  have key : s.requests < 2147483644 ∧ s.responses ≤ s.requests / 2 ∧
      ∀ r, s.pending = some r → r ≤ s.requests := by
    induction h with
    | refl =>
        cases startBlocked <;>
          exact ⟨by norm_num [TIState.start], by simp [TIState.start], by simp [TIState.start]⟩
    | tail hsteps hstep ih =>
        exact TIStep_preserves _ _ hstep ih.1 ih.2.1 ih.2.2
  exact key.2.1

theorem tinfo_response_bound_witness :
    TIReachable false { requests := (0 + 2) % W32, responses := 0, pending := none } ∧
    ({ requests := (0 + 2) % W32, responses := 0, pending := none } : TIState).responses ≤
      ({ requests := (0 + 2) % W32, responses := 0, pending := none } : TIState).requests / 2 := by
  have hreach : TIReachable false
      { requests := (0 + 2) % W32, responses := 0, pending := none } := by
    have hstep : TIStep (TIState.start false)
        { requests := (0 + 2) % W32, responses := 0, pending := none } := by
      have h := TIStep.pingStep (TIState.start false)
        (by norm_num [TIState.start, W32])
      simpa [TIState.start] using h
    exact Relation.ReflTransGen.single hstep
  exact ⟨hreach, tinfo_response_bound false _ hreach⟩

/-! #### Claim C1: support lemmas -/

theorem upd_self {α : Type} (f : Nat → α) (x : Nat) (v : α) : upd f x v x = v := by
  simp [upd]

theorem upd_ne {α : Type} (f : Nat → α) (x : Nat) (v : α) {y : Nat} (h : y ≠ x) :
    upd f x v y = f y := by
  simp [upd, h]

/-- Transport a program-point predicate across a pointwise pc update that
does not change its truth at the updated thread. -/
theorem updPC_pred (pcf : Nat → PC) (t : Nat) (pNew : PC) {Q : PC → Prop}
    (h : Q (pcf t) ↔ Q pNew) :
    ∀ v, Q ((upd pcf t pNew) v) ↔ Q (pcf v) := by
  intro v
  by_cases hvt : v = t
  · subst hvt
    rw [upd_self]
    exact h.symm
  · rw [upd_ne _ _ _ hvt]

theorem Inv_start : Inv Sys.start := by
  constructor
  · intro L u v hu hv
    exfalso
    by_cases h : u = 0 <;> simp [inSec, Sys.start, h, pcInSec] at hu
  · intro L
    constructor
    · intro hw
      exact absurd hw (by simp [Sys.start])
    · rintro ⟨u, hu⟩
      exfalso
      by_cases h : u = 0 <;> simp [inSec, Sys.start, h, pcInSec] at hu
  · intro v
    simp [Sys.start]
  · intro v
    by_cases h : v = 0 <;> simp [Sys.start, h]
  · intro v r hm
    by_cases h : v = 0 <;> simp [Sys.start, h, midReq] at hm
  · intro v hodd
    by_cases h : v = 0
    · simp [Sys.start, h, pcBlocked]
    · simp [Sys.start, h] at hodd
  · intro v hb
    simp [Sys.start]
  · intro v L hv
    simp [Sys.start] at hv
  · intro u L hu
    simp [Sys.start]
  · intro u L hsp
    by_cases h : u = 0 <;> simp [Sys.start, h, pcSpin] at hsp
  · intro v L hv
    simp [Sys.start] at hv
  · intro u L hu
    by_cases h : u = 0 <;> simp [Sys.start, h] at hu
  · simp [Sys.start]

theorem preserve_wbFast (t : Nat) (ht : t ≠ 0) (s : Sys) (H : Inv s)
    (L : Nat) (hpc : s.pc t = .idle) (hw : s.word L = .wrex t) :
    Inv { s with hold := upd s.hold t (some L) } := by
  refine ⟨H.secUnique, H.wordSec, H.respBound, H.reqBound, H.midBound,
    H.blockedPc, ?_, ?_, ?_, H.spinWord, ?_, ?_, H.sentinelPc⟩
  · -- blockedHold
    intro v hb
    by_cases hvt : v = t
    · subst hvt
      rw [hpc] at hb
      exact absurd hb (by simp [pcBlocked])
    · show upd s.hold t (some L) v = none
      rw [upd_ne _ _ _ hvt]
      exact H.blockedHold v hb
  · -- holdNotMid
    intro v L' hv
    by_cases hvt : v = t
    · subst hvt
      show midReq (s.pc v) = none
      rw [hpc]
      rfl
    · rw [show ({ s with hold := upd s.hold t (some L) } : Sys).hold v =
          upd s.hold t (some L) v from rfl, upd_ne _ _ _ hvt] at hv
      exact H.holdNotMid v L' hv
  · -- secNotHold
    intro u L' hu hcon
    by_cases hut : u = t
    · subst hut
      rw [show inSec { s with hold := upd s.hold u (some L) } u L' =
          pcInSec (s.pc u) L' from rfl, hpc] at hu
      exact absurd hu (by simp [pcInSec])
    · rw [show ({ s with hold := upd s.hold t (some L) } : Sys).hold u =
          upd s.hold t (some L) u from rfl, upd_ne _ _ _ hut] at hcon
      exact H.secNotHold u L' hu hcon
  · -- holdChar
    intro v L' hv
    by_cases hvt : v = t
    · subst hvt
      rw [show ({ s with hold := upd s.hold v (some L) } : Sys).hold v =
          upd s.hold v (some L) v from rfl, upd_self] at hv
      obtain rfl : L = L' := by injection hv
      left
      exact hw
    · rw [show ({ s with hold := upd s.hold t (some L) } : Sys).hold v =
          upd s.hold t (some L) v from rfl, upd_ne _ _ _ hvt] at hv
      exact H.holdChar v L' hv
  · -- wsNoHold
    intro u L' hu x hcon
    by_cases hxt : x = t
    · subst hxt
      rw [show ({ s with hold := upd s.hold x (some L) } : Sys).hold x =
          upd s.hold x (some L) x from rfl, upd_self] at hcon
      obtain rfl : L = L' := by injection hcon
      have husec : inSec s u L := by
        show pcInSec (s.pc u) L
        rw [show s.pc u = PC.wsStore L from hu]
        simp [pcInSec]
      have hint : s.word L = .intermediate := (H.wordSec L).mpr ⟨u, husec⟩
      rw [hw] at hint
      exact LState.noConfusion hint
    · rw [show ({ s with hold := upd s.hold t (some L) } : Sys).hold x =
          upd s.hold t (some L) x from rfl, upd_ne _ _ _ hxt] at hcon
      exact H.wsNoHold u L' hu x hcon

/-- Shared frame lemma for steps whose only effect is a program-point
move of the acting thread that crosses no section, wait, mid-window or
blocked-window boundary. -/
theorem preserve_pcOnly (t : Nat) (ht : t ≠ 0) (s : Sys) (H : Inv s) (pNew : PC)
    (hInSec : ∀ L, pcInSec (s.pc t) L ↔ pcInSec pNew L)
    (hWait : ∀ x L rx, pcSecWait (s.pc t) x L rx ↔ pcSecWait pNew x L rx)
    (hSpinNew : ∀ L, pcSpin pNew L → s.word L ≠ .wrex t)
    (hBlocked : pcBlocked (s.pc t) ↔ pcBlocked pNew)
    (hMidNone : midReq pNew = none)
    (hNotWs : ∀ L, pNew ≠ .wsStore L) :
    Inv { s with pc := upd s.pc t pNew } := by
  have hsec : ∀ v L, inSec { s with pc := upd s.pc t pNew } v L ↔ inSec s v L :=
    fun v L => @updPC_pred s.pc t pNew (fun p => pcInSec p L) (hInSec L) v
  refine ⟨?_, ?_, H.respBound, H.reqBound, ?_, ?_, ?_, ?_, ?_, ?_, ?_, ?_, ?_⟩
  · intro L u v hu hv
    exact H.secUnique L u v ((hsec u L).mp hu) ((hsec v L).mp hv)
  · intro L
    exact (H.wordSec L).trans (exists_congr fun u => (hsec u L).symm)
  · intro v r hm
    by_cases hvt : v = t
    · subst hvt
      rw [show ({ s with pc := upd s.pc v pNew } : Sys).pc v = upd s.pc v pNew v from rfl,
        upd_self, hMidNone] at hm
      exact absurd hm (by simp)
    · rw [show ({ s with pc := upd s.pc t pNew } : Sys).pc v = upd s.pc t pNew v from rfl,
        upd_ne _ _ _ hvt] at hm
      exact H.midBound v r hm
  · intro v hodd
    exact (@updPC_pred s.pc t pNew (fun p => pcBlocked p) hBlocked v).mpr (H.blockedPc v hodd)
  · intro v hb
    exact H.blockedHold v ((@updPC_pred s.pc t pNew (fun p => pcBlocked p) hBlocked v).mp hb)
  · intro v L hv
    by_cases hvt : v = t
    · subst hvt
      show midReq (upd s.pc v pNew v) = none
      rw [upd_self]
      exact hMidNone
    · show midReq (upd s.pc t pNew v) = none
      rw [upd_ne _ _ _ hvt]
      exact H.holdNotMid v L hv
  · intro u L hu
    exact H.secNotHold u L ((hsec u L).mp hu)
  · intro u L hsp
    by_cases hut : u = t
    · subst hut
      rw [show ({ s with pc := upd s.pc u pNew } : Sys).pc u = upd s.pc u pNew u from rfl,
        upd_self] at hsp
      exact hSpinNew L hsp
    · rw [show ({ s with pc := upd s.pc t pNew } : Sys).pc u = upd s.pc t pNew u from rfl,
        upd_ne _ _ _ hut] at hsp
      exact H.spinWord u L hsp
  · intro v L hv
    rcases H.holdChar v L hv with h | ⟨u, h1, h2⟩
    · left
      exact h
    · right
      exact ⟨u, (hsec u L).mpr h1,
        (@updPC_pred s.pc t pNew (fun p => pcSecWait p v L (s.resp v)) (hWait v L (s.resp v)) u).mpr h2⟩
  · intro u L hu x
    by_cases hut : u = t
    · subst hut
      rw [show ({ s with pc := upd s.pc u pNew } : Sys).pc u = upd s.pc u pNew u from rfl,
        upd_self] at hu
      exact absurd hu (hNotWs L)
    · rw [show ({ s with pc := upd s.pc t pNew } : Sys).pc u = upd s.pc t pNew u from rfl,
        upd_ne _ _ _ hut] at hu
      exact H.wsNoHold u L hu x
  · show upd s.pc t pNew 0 = .sleeping
    rw [upd_ne _ _ _ (Ne.symm ht)]
    exact H.sentinelPc

theorem preserve_wbSlow (t : Nat) (ht : t ≠ 0) (s : Sys) (H : Inv s)
    (L : Nat) (hpc : s.pc t = .idle) (hw : s.word L ≠ .wrex t) :
    Inv { s with pc := upd s.pc t (.spinTry L) } := by
  apply preserve_pcOnly t ht s H (.spinTry L)
  · intro L'
    rw [hpc]
    simp [pcInSec]
  · intro x L' rx
    rw [hpc]
    simp [pcSecWait]
  · intro L' hsp
    have hL : L = L' := by simpa [pcSpin] using hsp
    subst hL
    exact hw
  · rw [hpc]
    simp [pcBlocked]
  · rfl
  · intro L'
    simp
theorem preserve_casSpin (t : Nat) (ht : t ≠ 0) (s : Sys) (H : Inv s)
    (L : Nat) (hpc : s.pc t = .spinTry L) :
    Inv { s with pc := upd s.pc t (.spinHR L) } := by
  apply preserve_pcOnly t ht s H (.spinHR L)
  · intro L'
    rw [hpc]
    simp [pcInSec]
  · intro x L' rx
    rw [hpc]
    simp [pcSecWait]
  · intro L' hsp
    have hL : L = L' := by simpa [pcSpin] using hsp
    subst hL
    exact H.spinWord t L (by rw [hpc]; simp [pcSpin])
  · rw [hpc]
    simp [pcBlocked]
  · rfl
  · intro L'
    simp

theorem preserve_awaitSpin (t : Nat) (ht : t ≠ 0) (s : Sys) (H : Inv s)
    (L w c : Nat) (hpc : s.pc t = .awaitTry L w c) :
    Inv { s with pc := upd s.pc t (.awaitHR L w c) } := by
  apply preserve_pcOnly t ht s H (.awaitHR L w c)
  · intro L'
    rw [hpc]
    simp [pcInSec]
  · intro x L' rx
    rw [hpc]
    simp [pcSecWait]
  · intro L' hsp
    exact absurd hsp (by simp [pcSpin])
  · rw [hpc]
    simp [pcBlocked]
  · rfl
  · intro L'
    simp

theorem preserve_fuLoad (t : Nat) (ht : t ≠ 0) (s : Sys) (H : Inv s)
    (L : Nat) (hpc : s.pc t = .idle) :
    Inv { s with pc := upd s.pc t (.fuTry L (s.word L)) } := by
  apply preserve_pcOnly t ht s H (.fuTry L (s.word L))
  · intro L'
    rw [hpc]
    simp [pcInSec]
  · intro x L' rx
    rw [hpc]
    simp [pcSecWait]
  · intro L' hsp
    exact absurd hsp (by simp [pcSpin])
  · rw [hpc]
    simp [pcBlocked]
  · rfl
  · intro L'
    simp

theorem upd_or_zero (f : Nat → Nat) (x : Nat) : upd f x (f x ||| 0) = f := by
  funext y
  by_cases hy : y = x
  · subst hy
    rw [upd_self, Nat.or_zero]
  · rw [upd_ne _ _ _ hy]

/-- Shared lemma for the fetch_or of a handleRequests(false) call (the
spin bodies and yield): the requests word is unchanged in value, the hold
is released, and the program point enters the mid-window carrying the
prior requests word. -/
theorem preserve_hrFetch (t : Nat) (ht : t ≠ 0) (s : Sys) (H : Inv s) (pNew : PC)
    (hInSec : ∀ L, pcInSec (s.pc t) L ↔ pcInSec pNew L)
    (hWait : ∀ x L rx, pcSecWait (s.pc t) x L rx ↔ pcSecWait pNew x L rx)
    (hSpinNew : ∀ L, pcSpin pNew L → s.word L ≠ .wrex t)
    (hBlocked : pcBlocked (s.pc t) ↔ pcBlocked pNew)
    (hMidNew : ∀ r, midReq pNew = some r → r ≤ s.req t)
    (hNotWs : ∀ L, pNew ≠ .wsStore L) :
    Inv { s with pc := upd s.pc t pNew, hold := upd s.hold t none } := by
  have hsec : ∀ v L, inSec { s with pc := upd s.pc t pNew, hold := upd s.hold t none } v L ↔
      inSec s v L :=
    fun v L => @updPC_pred s.pc t pNew (fun p => pcInSec p L) (hInSec L) v
  refine ⟨?_, ?_, H.respBound, H.reqBound, ?_, ?_, ?_, ?_, ?_, ?_, ?_, ?_, ?_⟩
  · intro L u v hu hv
    exact H.secUnique L u v ((hsec u L).mp hu) ((hsec v L).mp hv)
  · intro L
    exact (H.wordSec L).trans (exists_congr fun u => (hsec u L).symm)
  · intro v r hm
    by_cases hvt : v = t
    · subst hvt
      rw [show ({ s with pc := upd s.pc v pNew, hold := upd s.hold v none } : Sys).pc v =
          upd s.pc v pNew v from rfl, upd_self] at hm
      exact hMidNew r hm
    · rw [show ({ s with pc := upd s.pc t pNew, hold := upd s.hold t none } : Sys).pc v =
          upd s.pc t pNew v from rfl, upd_ne _ _ _ hvt] at hm
      exact H.midBound v r hm
  · intro v hodd
    exact (@updPC_pred s.pc t pNew (fun p => pcBlocked p) hBlocked v).mpr (H.blockedPc v hodd)
  · intro v hb
    by_cases hvt : v = t
    · subst hvt
      show upd s.hold v none v = none
      rw [upd_self]
    · show upd s.hold t none v = none
      rw [upd_ne _ _ _ hvt]
      exact H.blockedHold v ((@updPC_pred s.pc t pNew (fun p => pcBlocked p) hBlocked v).mp hb)
  · intro v L hv
    by_cases hvt : v = t
    · subst hvt
      rw [show ({ s with pc := upd s.pc v pNew, hold := upd s.hold v none } : Sys).hold v =
          upd s.hold v none v from rfl, upd_self] at hv
      exact absurd hv (by simp)
    · rw [show ({ s with pc := upd s.pc t pNew, hold := upd s.hold t none } : Sys).hold v =
          upd s.hold t none v from rfl, upd_ne _ _ _ hvt] at hv
      show midReq (upd s.pc t pNew v) = none
      rw [upd_ne _ _ _ hvt]
      exact H.holdNotMid v L hv
  · intro u L hu hcon
    by_cases hut : u = t
    · subst hut
      rw [show ({ s with pc := upd s.pc u pNew, hold := upd s.hold u none } : Sys).hold u =
          upd s.hold u none u from rfl, upd_self] at hcon
      exact absurd hcon (by simp)
    · rw [show ({ s with pc := upd s.pc t pNew, hold := upd s.hold t none } : Sys).hold u =
          upd s.hold t none u from rfl, upd_ne _ _ _ hut] at hcon
      exact H.secNotHold u L ((hsec u L).mp hu) hcon
  · intro u L hsp
    by_cases hut : u = t
    · subst hut
      rw [show ({ s with pc := upd s.pc u pNew, hold := upd s.hold u none } : Sys).pc u =
          upd s.pc u pNew u from rfl, upd_self] at hsp
      exact hSpinNew L hsp
    · rw [show ({ s with pc := upd s.pc t pNew, hold := upd s.hold t none } : Sys).pc u =
          upd s.pc t pNew u from rfl, upd_ne _ _ _ hut] at hsp
      exact H.spinWord u L hsp
  · intro v L hv
    by_cases hvt : v = t
    · subst hvt
      rw [show ({ s with pc := upd s.pc v pNew, hold := upd s.hold v none } : Sys).hold v =
          upd s.hold v none v from rfl, upd_self] at hv
      exact absurd hv (by simp)
    · rw [show ({ s with pc := upd s.pc t pNew, hold := upd s.hold t none } : Sys).hold v =
          upd s.hold t none v from rfl, upd_ne _ _ _ hvt] at hv
      rcases H.holdChar v L hv with h | ⟨u, h1, h2⟩
      · left
        exact h
      · right
        exact ⟨u, (hsec u L).mpr h1,
          (@updPC_pred s.pc t pNew (fun p => pcSecWait p v L (s.resp v))
            (hWait v L (s.resp v)) u).mpr h2⟩
  · intro u L hu x hcon
    by_cases hut : u = t
    · subst hut
      rw [show ({ s with pc := upd s.pc u pNew, hold := upd s.hold u none } : Sys).pc u =
          upd s.pc u pNew u from rfl, upd_self] at hu
      exact absurd hu (hNotWs L)
    · rw [show ({ s with pc := upd s.pc t pNew, hold := upd s.hold t none } : Sys).pc u =
          upd s.pc t pNew u from rfl, upd_ne _ _ _ hut] at hu
      by_cases hxt : x = t
      · subst hxt
        rw [show ({ s with pc := upd s.pc x pNew, hold := upd s.hold x none } : Sys).hold x =
            upd s.hold x none x from rfl, upd_self] at hcon
        exact absurd hcon (by simp)
      · rw [show ({ s with pc := upd s.pc t pNew, hold := upd s.hold t none } : Sys).hold x =
            upd s.hold t none x from rfl, upd_ne _ _ _ hxt] at hcon
        exact H.wsNoHold u L hu x hcon
  · show upd s.pc t pNew 0 = .sleeping
    rw [upd_ne _ _ _ (Ne.symm ht)]
    exact H.sentinelPc

theorem preserve_spinHR1 (t : Nat) (ht : t ≠ 0) (s : Sys) (H : Inv s)
    (L : Nat) (hpc : s.pc t = .spinHR L) :
    Inv { s with req := upd s.req t (s.req t ||| 0),
                 pc := upd s.pc t (.spinMid L (s.req t)),
                 hold := upd s.hold t none } := by
  rw [upd_or_zero]
  apply preserve_hrFetch t ht s H (.spinMid L (s.req t))
  · intro L'
    rw [hpc]
    simp [pcInSec]
  · intro x L' rx
    rw [hpc]
    simp [pcSecWait]
  · intro L' hsp
    have hL : L = L' := by simpa [pcSpin] using hsp
    subst hL
    exact H.spinWord t L (by rw [hpc]; simp [pcSpin])
  · rw [hpc]
    simp [pcBlocked]
  · intro r hm
    have : s.req t = r := by simpa [midReq] using hm
    omega
  · intro L'
    simp

theorem preserve_awaitHR1 (t : Nat) (ht : t ≠ 0) (s : Sys) (H : Inv s)
    (L w c : Nat) (hpc : s.pc t = .awaitHR L w c) :
    Inv { s with req := upd s.req t (s.req t ||| 0),
                 pc := upd s.pc t (.awaitMid L w c (s.req t)),
                 hold := upd s.hold t none } := by
  rw [upd_or_zero]
  apply preserve_hrFetch t ht s H (.awaitMid L w c (s.req t))
  · intro L'
    rw [hpc]
    simp [pcInSec]
  · intro x L' rx
    rw [hpc]
    simp [pcSecWait]
  · intro L' hsp
    exact absurd hsp (by simp [pcSpin])
  · rw [hpc]
    simp [pcBlocked]
  · intro r hm
    have : s.req t = r := by simpa [midReq] using hm
    omega
  · intro L'
    simp

theorem preserve_yield1 (t : Nat) (ht : t ≠ 0) (s : Sys) (H : Inv s)
    (hpc : s.pc t = .idle) :
    Inv { s with req := upd s.req t (s.req t ||| 0),
                 pc := upd s.pc t (.yieldMid (s.req t)),
                 hold := upd s.hold t none } := by
  rw [upd_or_zero]
  apply preserve_hrFetch t ht s H (.yieldMid (s.req t))
  · intro L'
    rw [hpc]
    simp [pcInSec]
  · intro x L' rx
    rw [hpc]
    simp [pcSecWait]
  · intro L' hsp
    exact absurd hsp (by simp [pcSpin])
  · rw [hpc]
    simp [pcBlocked]
  · intro r hm
    have : s.req t = r := by simpa [midReq] using hm
    omega
  · intro L'
    simp

/-- Shared lemma for the responses_ store of a handleRequests call: the
acting thread leaves the mid-window (which carried the prior requests word
r) and publishes r >> 1 as its response count.  Because the hold was
released at the fetch_or, no thread can be holding through this thread's
counters, so the stored value disturbs no holder's wait evidence. -/
theorem preserve_hrStore (t : Nat) (ht : t ≠ 0) (s : Sys) (H : Inv s) (pNew : PC) (r : Nat)
    (hpcMid : midReq (s.pc t) = some r)
    (hInSec : ∀ L, pcInSec (s.pc t) L ↔ pcInSec pNew L)
    (hWait : ∀ x L rx, pcSecWait (s.pc t) x L rx ↔ pcSecWait pNew x L rx)
    (hSpinNew : ∀ L, pcSpin pNew L → s.word L ≠ .wrex t)
    (hBlocked : pcBlocked (s.pc t) ↔ pcBlocked pNew)
    (hMidNone : midReq pNew = none)
    (hNotWs : ∀ L, pNew ≠ .wsStore L)
    (hHoldBlocked : pcBlocked pNew → s.hold t = none) :
    Inv { s with resp := upd s.resp t (r / 2), pc := upd s.pc t pNew } := by
  have hsec : ∀ v L, inSec { s with resp := upd s.resp t (r / 2), pc := upd s.pc t pNew } v L ↔
      inSec s v L :=
    fun v L => @updPC_pred s.pc t pNew (fun p => pcInSec p L) (hInSec L) v
  refine ⟨?_, ?_, ?_, H.reqBound, ?_, ?_, ?_, ?_, ?_, ?_, ?_, ?_, ?_⟩
  · intro L u v hu hv
    exact H.secUnique L u v ((hsec u L).mp hu) ((hsec v L).mp hv)
  · intro L
    exact (H.wordSec L).trans (exists_congr fun u => (hsec u L).symm)
  · intro v
    by_cases hvt : v = t
    · subst hvt
      show upd s.resp v (r / 2) v ≤ s.req v / 2
      rw [upd_self]
      exact Nat.div_le_div_right (H.midBound v r hpcMid)
    · show upd s.resp t (r / 2) v ≤ s.req v / 2
      rw [upd_ne _ _ _ hvt]
      exact H.respBound v
  · intro v r' hm
    by_cases hvt : v = t
    · subst hvt
      rw [show ({ s with resp := upd s.resp v (r / 2), pc := upd s.pc v pNew } : Sys).pc v =
          upd s.pc v pNew v from rfl, upd_self, hMidNone] at hm
      exact absurd hm (by simp)
    · rw [show ({ s with resp := upd s.resp t (r / 2), pc := upd s.pc t pNew } : Sys).pc v =
          upd s.pc t pNew v from rfl, upd_ne _ _ _ hvt] at hm
      exact H.midBound v r' hm
  · intro v hodd
    exact (@updPC_pred s.pc t pNew (fun p => pcBlocked p) hBlocked v).mpr (H.blockedPc v hodd)
  · intro v hb
    by_cases hvt : v = t
    · subst hvt
      rw [show ({ s with resp := upd s.resp v (r / 2), pc := upd s.pc v pNew } : Sys).pc v =
          upd s.pc v pNew v from rfl, upd_self] at hb
      exact hHoldBlocked hb
    · exact H.blockedHold v ((@updPC_pred s.pc t pNew (fun p => pcBlocked p) hBlocked v).mp hb)
  · intro v L hv
    by_cases hvt : v = t
    · subst hvt
      have := H.holdNotMid v L hv
      rw [hpcMid] at this
      exact absurd this (by simp)
    · show midReq (upd s.pc t pNew v) = none
      rw [upd_ne _ _ _ hvt]
      exact H.holdNotMid v L hv
  · intro u L hu
    exact H.secNotHold u L ((hsec u L).mp hu)
  · intro u L hsp
    by_cases hut : u = t
    · subst hut
      rw [show ({ s with resp := upd s.resp u (r / 2), pc := upd s.pc u pNew } : Sys).pc u =
          upd s.pc u pNew u from rfl, upd_self] at hsp
      exact hSpinNew L hsp
    · rw [show ({ s with resp := upd s.resp t (r / 2), pc := upd s.pc t pNew } : Sys).pc u =
          upd s.pc t pNew u from rfl, upd_ne _ _ _ hut] at hsp
      exact H.spinWord u L hsp
  · intro v L hv
    by_cases hvt : v = t
    · subst hvt
      have := H.holdNotMid v L hv
      rw [hpcMid] at this
      exact absurd this (by simp)
    · rcases H.holdChar v L hv with h | ⟨u, h1, h2⟩
      · left
        exact h
      · right
        refine ⟨u, (hsec u L).mpr h1, ?_⟩
        show pcSecWait ((upd s.pc t pNew) u) v L (upd s.resp t (r / 2) v)
        rw [upd_ne _ _ _ hvt]
        exact (@updPC_pred s.pc t pNew (fun p => pcSecWait p v L (s.resp v))
          (hWait v L (s.resp v)) u).mpr h2
  · intro u L hu x hcon
    by_cases hut : u = t
    · subst hut
      rw [show ({ s with resp := upd s.resp u (r / 2), pc := upd s.pc u pNew } : Sys).pc u =
          upd s.pc u pNew u from rfl, upd_self] at hu
      exact absurd hu (hNotWs L)
    · rw [show ({ s with resp := upd s.resp t (r / 2), pc := upd s.pc t pNew } : Sys).pc u =
          upd s.pc t pNew u from rfl, upd_ne _ _ _ hut] at hu
      exact H.wsNoHold u L hu x hcon
  · show upd s.pc t pNew 0 = .sleeping
    rw [upd_ne _ _ _ (Ne.symm ht)]
    exact H.sentinelPc

theorem preserve_spinHR2 (t : Nat) (ht : t ≠ 0) (s : Sys) (H : Inv s)
    (L r : Nat) (hpc : s.pc t = .spinMid L r) :
    Inv { s with resp := upd s.resp t (r / 2), pc := upd s.pc t (.spinTry L) } := by
  apply preserve_hrStore t ht s H (.spinTry L) r
  · rw [hpc]
    rfl
  · intro L'
    rw [hpc]
    simp [pcInSec]
  · intro x L' rx
    rw [hpc]
    simp [pcSecWait]
  · intro L' hsp
    have hL : L = L' := by simpa [pcSpin] using hsp
    subst hL
    exact H.spinWord t L (by rw [hpc]; simp [pcSpin])
  · rw [hpc]
    simp [pcBlocked]
  · rfl
  · intro L'
    simp
  · intro hb
    exact absurd hb (by simp [pcBlocked])

theorem preserve_awaitHR2 (t : Nat) (ht : t ≠ 0) (s : Sys) (H : Inv s)
    (L w c r : Nat) (hpc : s.pc t = .awaitMid L w c r) :
    Inv { s with resp := upd s.resp t (r / 2), pc := upd s.pc t (.awaitTry L w c) } := by
  apply preserve_hrStore t ht s H (.awaitTry L w c) r
  · rw [hpc]
    rfl
  · intro L'
    rw [hpc]
    simp [pcInSec]
  · intro x L' rx
    rw [hpc]
    simp [pcSecWait]
  · intro L' hsp
    exact absurd hsp (by simp [pcSpin])
  · rw [hpc]
    simp [pcBlocked]
  · rfl
  · intro L'
    simp
  · intro hb
    exact absurd hb (by simp [pcBlocked])

theorem preserve_yield2 (t : Nat) (ht : t ≠ 0) (s : Sys) (H : Inv s)
    (r : Nat) (hpc : s.pc t = .yieldMid r) :
    Inv { s with resp := upd s.resp t (r / 2), pc := upd s.pc t .idle } := by
  apply preserve_hrStore t ht s H .idle r
  · rw [hpc]
    rfl
  · intro L'
    rw [hpc]
    simp [pcInSec]
  · intro x L' rx
    rw [hpc]
    simp [pcSecWait]
  · intro L' hsp
    exact absurd hsp (by simp [pcSpin])
  · rw [hpc]
    simp [pcBlocked]
  · rfl
  · intro L'
    simp
  · intro hb
    exact absurd hb (by simp [pcBlocked])

theorem preserve_block2 (t : Nat) (ht : t ≠ 0) (s : Sys) (H : Inv s)
    (r : Nat) (hpc : s.pc t = .blockMid r) :
    Inv { s with resp := upd s.resp t (r / 2), pc := upd s.pc t .sleeping } := by
  apply preserve_hrStore t ht s H .sleeping r
  · rw [hpc]
    rfl
  · intro L'
    rw [hpc]
    simp [pcInSec]
  · intro x L' rx
    rw [hpc]
    simp [pcSecWait]
  · intro L' hsp
    exact absurd hsp (by simp [pcSpin])
  · rw [hpc]
    simp [pcBlocked]
  · rfl
  · intro L'
    simp
  · intro hb
    exact H.blockedHold t (by rw [hpc]; simp [pcBlocked])

theorem preserve_block1 (t : Nat) (ht : t ≠ 0) (s : Sys) (H : Inv s)
    (hpc : s.pc t = .idle) (hassert : s.req t % 2 = 0) :
    Inv { s with req := upd s.req t (s.req t ||| 1),
                 pc := upd s.pc t (.blockMid (s.req t)),
                 hold := upd s.hold t none } := by
  have hlor : s.req t ||| 1 = s.req t + 1 := by
    rw [lor_one_eq]
    omega
  have hsec : ∀ v L,
      inSec { s with req := upd s.req t (s.req t ||| 1),
                     pc := upd s.pc t (.blockMid (s.req t)),
                     hold := upd s.hold t none } v L ↔ inSec s v L := by
    intro v L
    refine @updPC_pred s.pc t (.blockMid (s.req t)) (fun p => pcInSec p L) ?_ v
    rw [hpc]
    simp [pcInSec]
  refine ⟨?_, ?_, ?_, ?_, ?_, ?_, ?_, ?_, ?_, ?_, ?_, ?_, ?_⟩
  · intro L u v hu hv
    exact H.secUnique L u v ((hsec u L).mp hu) ((hsec v L).mp hv)
  · intro L
    exact (H.wordSec L).trans (exists_congr fun u => (hsec u L).symm)
  · intro v
    show s.resp v ≤ upd s.req t (s.req t ||| 1) v / 2
    by_cases hvt : v = t
    · subst hvt
      rw [upd_self, lor_one_div_two]
      exact H.respBound v
    · rw [upd_ne _ _ _ hvt]
      exact H.respBound v
  · intro v
    show upd s.req t (s.req t ||| 1) v < 2147483644
    by_cases hvt : v = t
    · subst hvt
      rw [upd_self, hlor]
      have := H.reqBound v
      omega
    · rw [upd_ne _ _ _ hvt]
      exact H.reqBound v
  · intro v r hm
    dsimp only at hm
    show r ≤ upd s.req t (s.req t ||| 1) v
    by_cases hvt : v = t
    · subst hvt
      rw [upd_self] at hm
      have hr : s.req v = r := by
        simpa [midReq] using hm
      rw [upd_self, ← hr]
      exact le_lor_one _
    · rw [upd_ne _ _ _ hvt] at hm
      rw [upd_ne _ _ _ hvt]
      exact H.midBound v r hm
  · intro v hodd
    dsimp only at hodd
    show pcBlocked (upd s.pc t (.blockMid (s.req t)) v)
    by_cases hvt : v = t
    · subst hvt
      rw [upd_self]
      simp [pcBlocked]
    · rw [upd_ne _ _ _ hvt] at hodd
      rw [upd_ne _ _ _ hvt]
      exact H.blockedPc v hodd
  · intro v hb
    dsimp only at hb
    show upd s.hold t none v = none
    by_cases hvt : v = t
    · subst hvt
      rw [upd_self]
    · rw [upd_ne _ _ _ hvt] at hb
      rw [upd_ne _ _ _ hvt]
      exact H.blockedHold v hb
  · intro v L hv
    dsimp only at hv
    show midReq (upd s.pc t (.blockMid (s.req t)) v) = none
    by_cases hvt : v = t
    · subst hvt
      rw [upd_self] at hv
      exact absurd hv (by simp)
    · rw [upd_ne _ _ _ hvt] at hv
      rw [upd_ne _ _ _ hvt]
      exact H.holdNotMid v L hv
  · intro u L hu hcon
    dsimp only at hcon
    by_cases hut : u = t
    · subst hut
      rw [upd_self] at hcon
      exact absurd hcon (by simp)
    · rw [upd_ne _ _ _ hut] at hcon
      exact H.secNotHold u L ((hsec u L).mp hu) hcon
  · intro u L hsp
    dsimp only at hsp
    by_cases hut : u = t
    · subst hut
      rw [upd_self] at hsp
      exact absurd hsp (by simp [pcSpin])
    · rw [upd_ne _ _ _ hut] at hsp
      exact H.spinWord u L hsp
  · intro v L hv
    dsimp only at hv
    by_cases hvt : v = t
    · subst hvt
      rw [upd_self] at hv
      exact absurd hv (by simp)
    · rw [upd_ne _ _ _ hvt] at hv
      rcases H.holdChar v L hv with h | ⟨u, h1, h2⟩
      · left
        exact h
      · right
        refine ⟨u, (hsec u L).mpr h1, ?_⟩
        show pcSecWait ((upd s.pc t (.blockMid (s.req t))) u) v L (s.resp v)
        refine (@updPC_pred s.pc t (.blockMid (s.req t))
          (fun p => pcSecWait p v L (s.resp v)) ?_ u).mpr h2
        rw [hpc]
        simp [pcSecWait]
  · intro u L hu x hcon
    dsimp only at hu hcon
    by_cases hut : u = t
    · subst hut
      rw [upd_self] at hu
      exact absurd hu (by simp)
    · rw [upd_ne _ _ _ hut] at hu
      by_cases hxt : x = t
      · subst hxt
        rw [upd_self] at hcon
        exact absurd hcon (by simp)
      · rw [upd_ne _ _ _ hxt] at hcon
        exact H.wsNoHold u L hu x hcon
  · show upd s.pc t (.blockMid (s.req t)) 0 = .sleeping
    rw [upd_ne _ _ _ (Ne.symm ht)]
    exact H.sentinelPc

theorem preserve_unblock (t : Nat) (ht : t ≠ 0) (s : Sys) (H : Inv s)
    (hpc : s.pc t = .sleeping) :
    Inv { s with req := upd s.req t (s.req t - s.req t % 2),
                 pc := upd s.pc t .idle } := by
  have hsec : ∀ v L,
      inSec { s with req := upd s.req t (s.req t - s.req t % 2),
                     pc := upd s.pc t .idle } v L ↔ inSec s v L := by
    intro v L
    refine @updPC_pred s.pc t .idle (fun p => pcInSec p L) ?_ v
    rw [hpc]
    simp [pcInSec]
  refine ⟨?_, ?_, ?_, ?_, ?_, ?_, ?_, ?_, ?_, ?_, ?_, ?_, ?_⟩
  · intro L u v hu hv
    exact H.secUnique L u v ((hsec u L).mp hu) ((hsec v L).mp hv)
  · intro L
    exact (H.wordSec L).trans (exists_congr fun u => (hsec u L).symm)
  · intro v
    show s.resp v ≤ upd s.req t (s.req t - s.req t % 2) v / 2
    by_cases hvt : v = t
    · subst hvt
      rw [upd_self]
      have := H.respBound v
      omega
    · rw [upd_ne _ _ _ hvt]
      exact H.respBound v
  · intro v
    show upd s.req t (s.req t - s.req t % 2) v < 2147483644
    by_cases hvt : v = t
    · subst hvt
      rw [upd_self]
      have := H.reqBound v
      omega
    · rw [upd_ne _ _ _ hvt]
      exact H.reqBound v
  · intro v r hm
    dsimp only at hm
    show r ≤ upd s.req t (s.req t - s.req t % 2) v
    by_cases hvt : v = t
    · subst hvt
      rw [upd_self] at hm
      exact absurd hm (by simp [midReq])
    · rw [upd_ne _ _ _ hvt] at hm
      rw [upd_ne _ _ _ hvt]
      exact H.midBound v r hm
  · intro v hodd
    dsimp only at hodd
    show pcBlocked (upd s.pc t .idle v)
    by_cases hvt : v = t
    · subst hvt
      rw [upd_self] at hodd
      exact absurd hodd (by omega)
    · rw [upd_ne _ _ _ hvt] at hodd
      rw [upd_ne _ _ _ hvt]
      exact H.blockedPc v hodd
  · intro v hb
    dsimp only at hb
    by_cases hvt : v = t
    · subst hvt
      rw [upd_self] at hb
      exact absurd hb (by simp [pcBlocked])
    · rw [upd_ne _ _ _ hvt] at hb
      exact H.blockedHold v hb
  · intro v L hv
    dsimp only at hv
    show midReq (upd s.pc t .idle v) = none
    by_cases hvt : v = t
    · subst hvt
      rw [upd_self]
      rfl
    · rw [upd_ne _ _ _ hvt]
      exact H.holdNotMid v L hv
  · intro u L hu
    exact H.secNotHold u L ((hsec u L).mp hu)
  · intro u L hsp
    dsimp only at hsp
    by_cases hut : u = t
    · subst hut
      rw [upd_self] at hsp
      exact absurd hsp (by simp [pcSpin])
    · rw [upd_ne _ _ _ hut] at hsp
      exact H.spinWord u L hsp
  · intro v L hv
    dsimp only at hv
    by_cases hvt : v = t
    · subst hvt
      have hnone := H.blockedHold v (by rw [hpc]; simp [pcBlocked])
      rw [hnone] at hv
      exact absurd hv (by simp)
    · rcases H.holdChar v L hv with h | ⟨u, h1, h2⟩
      · left
        exact h
      · right
        refine ⟨u, (hsec u L).mpr h1, ?_⟩
        show pcSecWait ((upd s.pc t .idle) u) v L (s.resp v)
        refine (@updPC_pred s.pc t .idle (fun p => pcSecWait p v L (s.resp v)) ?_ u).mpr h2
        rw [hpc]
        simp [pcSecWait]
  · intro u L hu x hcon
    dsimp only at hu hcon
    by_cases hut : u = t
    · subst hut
      rw [upd_self] at hu
      exact absurd hu (by simp)
    · rw [upd_ne _ _ _ hut] at hu
      exact H.wsNoHold u L hu x hcon
  · show upd s.pc t .idle 0 = .sleeping
    rw [upd_ne _ _ _ (Ne.symm ht)]
    exact H.sentinelPc

theorem pcSecWait_inSec (p : PC) (x L rx : Nat) (h : pcSecWait p x L rx) :
    pcInSec p L := by
  cases p <;> simp_all [pcSecWait, pcInSec]

theorem pcInSec_unique (p : PC) (L L' : Nat) (h : pcInSec p L) (h' : pcInSec p L') :
    L = L' := by
  cases p <;> simp_all [pcInSec]

/-- Shared lemma for the two ways a thread inside the intermediate
section of L advances to the terminal store (owner-was-blocked is handled
separately in pingStep): the caller must produce the key fact that no
thread still holds L. -/
theorem preserve_toWsStore (t : Nat) (ht : t ≠ 0) (s : Sys) (H : Inv s) (L : Nat)
    (hpcSec : pcInSec (s.pc t) L)
    (hInSec : ∀ L', pcInSec (s.pc t) L' ↔ pcInSec (PC.wsStore L) L')
    (hMidOld : midReq (s.pc t) = none)
    (hBlockedOld : ¬ pcBlocked (s.pc t))
    (hNoWitness : ∀ x, s.hold x ≠ some L) :
    Inv { s with pc := upd s.pc t (.wsStore L) } := by
  have hsec : ∀ v L', inSec { s with pc := upd s.pc t (.wsStore L) } v L' ↔ inSec s v L' :=
    fun v L' => @updPC_pred s.pc t (.wsStore L) (fun p => pcInSec p L') (hInSec L') v
  have hblk : pcBlocked (s.pc t) ↔ pcBlocked (PC.wsStore L) := by
    constructor
    · intro h
      exact absurd h hBlockedOld
    · intro h
      exact absurd h (by simp [pcBlocked])
  refine ⟨?_, ?_, H.respBound, H.reqBound, ?_, ?_, ?_, ?_, ?_, ?_, ?_, ?_, ?_⟩
  · intro L' u v hu hv
    exact H.secUnique L' u v ((hsec u L').mp hu) ((hsec v L').mp hv)
  · intro L'
    exact (H.wordSec L').trans (exists_congr fun u => (hsec u L').symm)
  · intro v r hm
    dsimp only at hm
    by_cases hvt : v = t
    · subst hvt
      rw [upd_self] at hm
      exact absurd hm (by simp [midReq])
    · rw [upd_ne _ _ _ hvt] at hm
      exact H.midBound v r hm
  · intro v hodd
    exact (@updPC_pred s.pc t (.wsStore L) (fun p => pcBlocked p) hblk v).mpr
      (H.blockedPc v hodd)
  · intro v hb
    exact H.blockedHold v
      ((@updPC_pred s.pc t (.wsStore L) (fun p => pcBlocked p) hblk v).mp hb)
  · intro v L' hv
    dsimp only at hv
    show midReq (upd s.pc t (.wsStore L) v) = none
    by_cases hvt : v = t
    · subst hvt
      rw [upd_self]
      rfl
    · rw [upd_ne _ _ _ hvt]
      exact H.holdNotMid v L' hv
  · intro u L' hu hcon
    dsimp only at hcon
    by_cases hut : u = t
    · subst hut
      have hL : L = L' := by
        rw [show inSec { s with pc := upd s.pc u (.wsStore L) } u L' =
            pcInSec (upd s.pc u (.wsStore L) u) L' from rfl, upd_self] at hu
        simpa [pcInSec] using hu
      subst hL
      exact hNoWitness u hcon
    · exact H.secNotHold u L' ((hsec u L').mp hu) hcon
  · intro u L' hsp
    dsimp only at hsp
    by_cases hut : u = t
    · subst hut
      rw [upd_self] at hsp
      exact absurd hsp (by simp [pcSpin])
    · rw [upd_ne _ _ _ hut] at hsp
      exact H.spinWord u L' hsp
  · intro x L' hx
    dsimp only at hx
    rcases H.holdChar x L' hx with h | ⟨u, h1, h2⟩
    · left
      exact h
    · by_cases hut : u = t
      · subst hut
        have hL : L' = L :=
          pcInSec_unique (s.pc u) L' L (pcSecWait_inSec _ _ _ _ h2) hpcSec
        subst hL
        exact absurd hx (hNoWitness x)
      · right
        refine ⟨u, (hsec u L').mpr h1, ?_⟩
        show pcSecWait ((upd s.pc t (.wsStore L)) u) x L' (s.resp x)
        rw [upd_ne _ _ _ hut]
        exact h2
  · intro u L' hu x
    dsimp only at hu
    by_cases hut : u = t
    · subst hut
      rw [upd_self] at hu
      obtain rfl : L = L' := by injection hu
      exact hNoWitness x
    · rw [upd_ne _ _ _ hut] at hu
      exact H.wsNoHold u L' hu x
  · show upd s.pc t (.wsStore L) 0 = .sleeping
    rw [upd_ne _ _ _ (Ne.symm ht)]
    exact H.sentinelPc

theorem preserve_selfOwner (t : Nat) (ht : t ≠ 0) (s : Sys) (H : Inv s)
    (L : Nat) (prev : LState)
    (hpc : s.pc t = .gotInt L prev) (how : prev.ownerOf = some t) :
    Inv { s with pc := upd s.pc t (.wsStore L) } := by
  have hsect : inSec s t L := by
    show pcInSec (s.pc t) L
    rw [hpc]
    simp [pcInSec]
  have hNoWitness : ∀ x, s.hold x ≠ some L := by
    intro x hx
    rcases H.holdChar x L hx with h | ⟨u, h1, h2⟩
    · have hint : s.word L = .intermediate := (H.wordSec L).mpr ⟨t, hsect⟩
      rw [hint] at h
      exact LState.noConfusion h
    · have hut : u = t := H.secUnique L u t h1 hsect
      subst hut
      rw [show SecWait s u x L = pcSecWait (s.pc u) x L (s.resp x) from rfl, hpc] at h2
      simp only [pcSecWait] at h2
      obtain ⟨-, hx2⟩ := h2
      rw [how] at hx2
      have hux : u = x := by injection hx2
      rw [← hux] at hx
      exact H.secNotHold u L hsect hx
  apply preserve_toWsStore t ht s H L hsect
  · intro L'
    rw [hpc]
    simp [pcInSec]
  · rw [hpc]
    rfl
  · rw [hpc]
    simp [pcBlocked]
  · exact hNoWitness

theorem preserve_awaitDone (t : Nat) (ht : t ≠ 0) (s : Sys) (H : Inv s)
    (L w c : Nat) (hpc : s.pc t = .awaitTry L w c) (hresp : s.resp w ≥ c) :
    Inv { s with pc := upd s.pc t (.wsStore L) } := by
  have hsect : inSec s t L := by
    show pcInSec (s.pc t) L
    rw [hpc]
    simp [pcInSec]
  have hNoWitness : ∀ x, s.hold x ≠ some L := by
    intro x hx
    rcases H.holdChar x L hx with h | ⟨u, h1, h2⟩
    · have hint : s.word L = .intermediate := (H.wordSec L).mpr ⟨t, hsect⟩
      rw [hint] at h
      exact LState.noConfusion h
    · have hut : u = t := H.secUnique L u t h1 hsect
      subst hut
      rw [show SecWait s u x L = pcSecWait (s.pc u) x L (s.resp x) from rfl, hpc] at h2
      simp only [pcSecWait] at h2
      obtain ⟨-, hwx, hlt⟩ := h2
      subst hwx
      omega
  apply preserve_toWsStore t ht s H L hsect
  · intro L'
    rw [hpc]
    simp [pcInSec]
  · rw [hpc]
    rfl
  · rw [hpc]
    simp [pcBlocked]
  · exact hNoWitness

theorem preserve_pingStep (t : Nat) (ht : t ≠ 0) (s : Sys) (H : Inv s)
    (L : Nat) (prev : LState) (w : Nat)
    (hpc : s.pc t = .gotInt L prev) (how : prev.ownerOf = some w) (hwt : w ≠ t)
    (hassert : (s.req w + 2) % W32 < 2147483644) :
    Inv { s with req := upd s.req w ((s.req w + 2) % W32),
                 pc := upd s.pc t
                   (if (s.req w + 2) % W32 % 2 = 1 then .wsStore L
                    else .awaitTry L w (((s.req w + 2) % W32) / 2)) } := by
  have hnw : (s.req w + 2) % W32 = s.req w + 2 := by
    apply Nat.mod_eq_of_lt
    have h1 := H.reqBound w
    have h2 : (2147483644 : Nat) + 2 < W32 := by norm_num [W32]
    omega
  rw [hnw] at hassert ⊢
  have hsect : inSec s t L := by
    show pcInSec (s.pc t) L
    rw [hpc]
    simp [pcInSec]
  rcases Nat.mod_two_eq_zero_or_one (s.req w) with hpar | hpar
  · -- the owner was not blocked: enter awaitResponse
    have hcond : ¬ ((s.req w + 2) % 2 = 1) := by omega
    rw [if_neg hcond]
    have hsec : ∀ v L',
        inSec { s with req := upd s.req w (s.req w + 2),
                       pc := upd s.pc t (.awaitTry L w ((s.req w + 2) / 2)) } v L' ↔
        inSec s v L' := by
      intro v L'
      refine @updPC_pred s.pc t (.awaitTry L w ((s.req w + 2) / 2))
        (fun p => pcInSec p L') ?_ v
      rw [hpc]
      simp [pcInSec]
    refine ⟨?_, ?_, ?_, ?_, ?_, ?_, ?_, ?_, ?_, ?_, ?_, ?_, ?_⟩
    · intro L' u v hu hv
      exact H.secUnique L' u v ((hsec u L').mp hu) ((hsec v L').mp hv)
    · intro L'
      exact (H.wordSec L').trans (exists_congr fun u => (hsec u L').symm)
    · intro v
      show s.resp v ≤ upd s.req w (s.req w + 2) v / 2
      by_cases hvw : v = w
      · subst hvw
        rw [upd_self]
        calc s.resp v ≤ s.req v / 2 := H.respBound v
          _ ≤ (s.req v + 2) / 2 := Nat.div_le_div_right (by omega)
      · rw [upd_ne _ _ _ hvw]
        exact H.respBound v
    · intro v
      show upd s.req w (s.req w + 2) v < 2147483644
      by_cases hvw : v = w
      · subst hvw
        rw [upd_self]
        exact hassert
      · rw [upd_ne _ _ _ hvw]
        exact H.reqBound v
    · intro v r hm
      dsimp only at hm
      show r ≤ upd s.req w (s.req w + 2) v
      by_cases hvt : v = t
      · subst hvt
        rw [upd_self] at hm
        exact absurd hm (by simp [midReq])
      · rw [upd_ne _ _ _ hvt] at hm
        by_cases hvw : v = w
        · subst hvw
          rw [upd_self]
          have := H.midBound v r hm
          omega
        · rw [upd_ne _ _ _ hvw]
          exact H.midBound v r hm
    · intro v hodd
      dsimp only at hodd
      show pcBlocked (upd s.pc t (.awaitTry L w ((s.req w + 2) / 2)) v)
      by_cases hvw : v = w
      · subst hvw
        rw [upd_self] at hodd
        omega
      · rw [upd_ne _ _ _ hvw] at hodd
        by_cases hvt : v = t
        · subst hvt
          have := H.blockedPc v hodd
          rw [hpc] at this
          exact absurd this (by simp [pcBlocked])
        · rw [upd_ne _ _ _ hvt]
          exact H.blockedPc v hodd
    · intro v hb
      dsimp only at hb
      by_cases hvt : v = t
      · subst hvt
        rw [upd_self] at hb
        exact absurd hb (by simp [pcBlocked])
      · rw [upd_ne _ _ _ hvt] at hb
        exact H.blockedHold v hb
    · intro v L' hv
      dsimp only at hv
      show midReq (upd s.pc t (.awaitTry L w ((s.req w + 2) / 2)) v) = none
      by_cases hvt : v = t
      · subst hvt
        rw [upd_self]
        rfl
      · rw [upd_ne _ _ _ hvt]
        exact H.holdNotMid v L' hv
    · intro u L' hu
      exact H.secNotHold u L' ((hsec u L').mp hu)
    · intro u L' hsp
      dsimp only at hsp
      by_cases hut : u = t
      · subst hut
        rw [upd_self] at hsp
        exact absurd hsp (by simp [pcSpin])
      · rw [upd_ne _ _ _ hut] at hsp
        exact H.spinWord u L' hsp
    · intro x L' hx
      dsimp only at hx
      rcases H.holdChar x L' hx with h | ⟨u, h1, h2⟩
      · left
        exact h
      · by_cases hut : u = t
        · subst hut
          rw [show SecWait s u x L' = pcSecWait (s.pc u) x L' (s.resp x) from rfl,
            hpc] at h2
          simp only [pcSecWait] at h2
          obtain ⟨hL', hx2⟩ := h2
          subst hL'
          rw [how] at hx2
          have hwx : w = x := by injection hx2
          subst hwx
          right
          refine ⟨u, ?_, ?_⟩
          · show pcInSec ((upd s.pc u (.awaitTry L w ((s.req w + 2) / 2))) u) L
            rw [upd_self]
            simp [pcInSec]
          · show pcSecWait ((upd s.pc u (.awaitTry L w ((s.req w + 2) / 2))) u)
              w L (s.resp w)
            rw [upd_self]
            exact ⟨rfl, rfl, by have := H.respBound w; omega⟩
        · right
          refine ⟨u, (hsec u L').mpr h1, ?_⟩
          show pcSecWait ((upd s.pc t (.awaitTry L w ((s.req w + 2) / 2))) u)
            x L' (s.resp x)
          rw [upd_ne _ _ _ hut]
          exact h2
    · intro u L' hu x
      dsimp only at hu
      by_cases hut : u = t
      · subst hut
        rw [upd_self] at hu
        exact absurd hu (by simp)
      · rw [upd_ne _ _ _ hut] at hu
        exact H.wsNoHold u L' hu x
    · show upd s.pc t (.awaitTry L w ((s.req w + 2) / 2)) 0 = .sleeping
      rw [upd_ne _ _ _ (Ne.symm ht)]
      exact H.sentinelPc
  · -- the owner was blocked: straight to the terminal store
    have hcond : (s.req w + 2) % 2 = 1 := by omega
    rw [if_pos hcond]
    have hwhold : s.hold w = none := H.blockedHold w (H.blockedPc w hpar)
    have hNoWitness : ∀ x, s.hold x ≠ some L := by
      intro x hx
      rcases H.holdChar x L hx with h | ⟨u, h1, h2⟩
      · have hint : s.word L = .intermediate := (H.wordSec L).mpr ⟨t, hsect⟩
        rw [hint] at h
        exact LState.noConfusion h
      · have hut : u = t := H.secUnique L u t h1 hsect
        subst hut
        rw [show SecWait s u x L = pcSecWait (s.pc u) x L (s.resp x) from rfl, hpc] at h2
        simp only [pcSecWait] at h2
        obtain ⟨-, hx2⟩ := h2
        rw [how] at hx2
        have hwx : w = x := by injection hx2
        rw [← hwx] at hx
        rw [hwhold] at hx
        exact Option.noConfusion hx
    have hsec : ∀ v L',
        inSec { s with req := upd s.req w (s.req w + 2),
                       pc := upd s.pc t (.wsStore L) } v L' ↔ inSec s v L' := by
      intro v L'
      refine @updPC_pred s.pc t (.wsStore L) (fun p => pcInSec p L') ?_ v
      rw [hpc]
      simp [pcInSec]
    refine ⟨?_, ?_, ?_, ?_, ?_, ?_, ?_, ?_, ?_, ?_, ?_, ?_, ?_⟩
    · intro L' u v hu hv
      exact H.secUnique L' u v ((hsec u L').mp hu) ((hsec v L').mp hv)
    · intro L'
      exact (H.wordSec L').trans (exists_congr fun u => (hsec u L').symm)
    · intro v
      show s.resp v ≤ upd s.req w (s.req w + 2) v / 2
      by_cases hvw : v = w
      · subst hvw
        rw [upd_self]
        calc s.resp v ≤ s.req v / 2 := H.respBound v
          _ ≤ (s.req v + 2) / 2 := Nat.div_le_div_right (by omega)
      · rw [upd_ne _ _ _ hvw]
        exact H.respBound v
    · intro v
      show upd s.req w (s.req w + 2) v < 2147483644
      by_cases hvw : v = w
      · subst hvw
        rw [upd_self]
        exact hassert
      · rw [upd_ne _ _ _ hvw]
        exact H.reqBound v
    · intro v r hm
      dsimp only at hm
      show r ≤ upd s.req w (s.req w + 2) v
      by_cases hvt : v = t
      · subst hvt
        rw [upd_self] at hm
        exact absurd hm (by simp [midReq])
      · rw [upd_ne _ _ _ hvt] at hm
        by_cases hvw : v = w
        · subst hvw
          rw [upd_self]
          have := H.midBound v r hm
          omega
        · rw [upd_ne _ _ _ hvw]
          exact H.midBound v r hm
    · intro v hodd
      dsimp only at hodd
      show pcBlocked (upd s.pc t (.wsStore L) v)
      by_cases hvw : v = w
      · subst hvw
        rw [upd_ne _ _ _ hwt]
        exact H.blockedPc v hpar
      · rw [upd_ne _ _ _ hvw] at hodd
        by_cases hvt : v = t
        · subst hvt
          have := H.blockedPc v hodd
          rw [hpc] at this
          exact absurd this (by simp [pcBlocked])
        · rw [upd_ne _ _ _ hvt]
          exact H.blockedPc v hodd
    · intro v hb
      dsimp only at hb
      by_cases hvt : v = t
      · subst hvt
        rw [upd_self] at hb
        exact absurd hb (by simp [pcBlocked])
      · rw [upd_ne _ _ _ hvt] at hb
        exact H.blockedHold v hb
    · intro v L' hv
      dsimp only at hv
      show midReq (upd s.pc t (.wsStore L) v) = none
      by_cases hvt : v = t
      · subst hvt
        rw [upd_self]
        rfl
      · rw [upd_ne _ _ _ hvt]
        exact H.holdNotMid v L' hv
    · intro u L' hu hcon
      dsimp only at hcon
      by_cases hut : u = t
      · subst hut
        have hu2 : pcInSec (upd s.pc u (.wsStore L) u) L' := hu
        rw [upd_self] at hu2
        have hL : L = L' := by simpa [pcInSec] using hu2
        rw [← hL] at hcon
        exact hNoWitness u hcon
      · exact H.secNotHold u L' ((hsec u L').mp hu) hcon
    · intro u L' hsp
      dsimp only at hsp
      by_cases hut : u = t
      · subst hut
        rw [upd_self] at hsp
        exact absurd hsp (by simp [pcSpin])
      · rw [upd_ne _ _ _ hut] at hsp
        exact H.spinWord u L' hsp
    · intro x L' hx
      dsimp only at hx
      rcases H.holdChar x L' hx with h | ⟨u, h1, h2⟩
      · left
        exact h
      · by_cases hut : u = t
        · subst hut
          have hL : L' = L :=
            pcInSec_unique (s.pc u) L' L (pcSecWait_inSec _ _ _ _ h2) hsect
          subst hL
          exact absurd hx (hNoWitness x)
        · right
          refine ⟨u, (hsec u L').mpr h1, ?_⟩
          show pcSecWait ((upd s.pc t (.wsStore L)) u) x L' (s.resp x)
          rw [upd_ne _ _ _ hut]
          exact h2
    · intro u L' hu x
      dsimp only at hu
      by_cases hut : u = t
      · subst hut
        rw [upd_self] at hu
        obtain rfl : L = L' := by injection hu
        exact hNoWitness x
      · rw [upd_ne _ _ _ hut] at hu
        exact H.wsNoHold u L' hu x
    · show upd s.pc t (.wsStore L) 0 = .sleeping
      rw [upd_ne _ _ _ (Ne.symm ht)]
      exact H.sentinelPc

theorem preserve_casOk (t : Nat) (ht : t ≠ 0) (s : Sys) (H : Inv s)
    (L : Nat) (hpc : s.pc t = .spinTry L) (hw : s.word L ≠ .intermediate) :
    Inv { s with word := upd s.word L .intermediate,
                 pc := upd s.pc t (.gotInt L (s.word L)) } := by
  have hNoSec : ∀ u, ¬ inSec s u L := by
    intro u hu
    exact hw ((H.wordSec L).mpr ⟨u, hu⟩)
  have hNoHold : s.hold t ≠ some L := by
    intro hh
    rcases H.holdChar t L hh with h | ⟨u, h1, -⟩
    · exact H.spinWord t L (by rw [hpc]; simp [pcSpin]) h
    · exact hNoSec u h1
  have hchar : ∀ z L',
      inSec { s with word := upd s.word L .intermediate,
                     pc := upd s.pc t (.gotInt L (s.word L)) } z L' →
      (z = t ∧ L' = L) ∨ (z ≠ t ∧ inSec s z L') := by
    intro z L' hz
    by_cases hzt : z = t
    · subst hzt
      left
      refine ⟨rfl, ?_⟩
      have hz2 : pcInSec (upd s.pc z (.gotInt L (s.word L)) z) L' := hz
      rw [upd_self] at hz2
      simpa [pcInSec] using (hz2.symm)
    · right
      refine ⟨hzt, ?_⟩
      have hz2 : pcInSec (upd s.pc t (.gotInt L (s.word L)) z) L' := hz
      rw [upd_ne _ _ _ hzt] at hz2
      exact hz2
  refine ⟨?_, ?_, H.respBound, H.reqBound, ?_, ?_, ?_, ?_, ?_, ?_, ?_, ?_, ?_⟩
  · intro L' u v hu hv
    rcases hchar u L' hu with ⟨hu1, hu2⟩ | ⟨hu1, hu2⟩ <;>
      rcases hchar v L' hv with ⟨hv1, hv2⟩ | ⟨hv1, hv2⟩
    · rw [hu1, hv1]
    · subst hu2
      exact absurd hv2 (hNoSec v)
    · subst hv2
      exact absurd hu2 (hNoSec u)
    · exact H.secUnique L' u v hu2 hv2
  · intro L'
    by_cases hL : L' = L
    · subst hL
      constructor
      · intro _
        refine ⟨t, ?_⟩
        show pcInSec (upd s.pc t (.gotInt L' (s.word L')) t) L'
        rw [upd_self]
        simp [pcInSec]
      · intro _
        show upd s.word L' .intermediate L' = .intermediate
        rw [upd_self]
    · constructor
      · intro hint
        have hint2 : upd s.word L .intermediate L' = .intermediate := hint
        rw [upd_ne _ _ _ hL] at hint2
        obtain ⟨u, hu⟩ := (H.wordSec L').mp hint2
        refine ⟨u, ?_⟩
        have hut : u ≠ t := by
          intro h
          subst h
          rw [show inSec s u L' = pcInSec (s.pc u) L' from rfl, hpc] at hu
          simp [pcInSec] at hu
        show pcInSec (upd s.pc t (.gotInt L (s.word L)) u) L'
        rw [upd_ne _ _ _ hut]
        exact hu
      · rintro ⟨u, hu⟩
        rcases hchar u L' hu with ⟨-, h2⟩ | ⟨-, h2⟩
        · exact absurd h2 hL
        · show upd s.word L .intermediate L' = .intermediate
          rw [upd_ne _ _ _ hL]
          exact (H.wordSec L').mpr ⟨u, h2⟩
  · intro v r hm
    dsimp only at hm
    by_cases hvt : v = t
    · subst hvt
      rw [upd_self] at hm
      exact absurd hm (by simp [midReq])
    · rw [upd_ne _ _ _ hvt] at hm
      exact H.midBound v r hm
  · intro v hodd
    show pcBlocked (upd s.pc t (.gotInt L (s.word L)) v)
    by_cases hvt : v = t
    · subst hvt
      have := H.blockedPc v hodd
      rw [hpc] at this
      exact absurd this (by simp [pcBlocked])
    · rw [upd_ne _ _ _ hvt]
      exact H.blockedPc v hodd
  · intro v hb
    dsimp only at hb
    by_cases hvt : v = t
    · subst hvt
      rw [upd_self] at hb
      exact absurd hb (by simp [pcBlocked])
    · rw [upd_ne _ _ _ hvt] at hb
      exact H.blockedHold v hb
  · intro v L' hv
    dsimp only at hv
    show midReq (upd s.pc t (.gotInt L (s.word L)) v) = none
    by_cases hvt : v = t
    · subst hvt
      rw [upd_self]
      rfl
    · rw [upd_ne _ _ _ hvt]
      exact H.holdNotMid v L' hv
  · intro u L' hu hcon
    dsimp only at hcon
    rcases hchar u L' hu with ⟨h1, h2⟩ | ⟨-, h2⟩
    · subst h1
      subst h2
      exact hNoHold hcon
    · exact H.secNotHold u L' h2 hcon
  · intro u L' hsp
    dsimp only at hsp
    by_cases hut : u = t
    · subst hut
      rw [upd_self] at hsp
      exact absurd hsp (by simp [pcSpin])
    · rw [upd_ne _ _ _ hut] at hsp
      show upd s.word L .intermediate L' ≠ .wrex u
      by_cases hL : L' = L
      · subst hL
        rw [upd_self]
        simp
      · rw [upd_ne _ _ _ hL]
        exact H.spinWord u L' hsp
  · intro x L'' hx
    dsimp only at hx
    by_cases hL : L'' = L
    · subst hL
      rcases H.holdChar x L'' hx with h | ⟨u, h1, -⟩
      · right
        refine ⟨t, ?_, ?_⟩
        · show pcInSec (upd s.pc t (.gotInt L'' (s.word L'')) t) L''
          rw [upd_self]
          simp [pcInSec]
        · show pcSecWait (upd s.pc t (.gotInt L'' (s.word L'')) t) x L'' (s.resp x)
          rw [upd_self]
          refine ⟨rfl, ?_⟩
          rw [h]
          rfl
      · exact absurd h1 (hNoSec u)
    · rcases H.holdChar x L'' hx with h | ⟨u, h1, h2⟩
      · left
        show upd s.word L .intermediate L'' = .wrex x
        rw [upd_ne _ _ _ hL]
        exact h
      · have hut : u ≠ t := by
          intro hc
          subst hc
          rw [show inSec s u L'' = pcInSec (s.pc u) L'' from rfl, hpc] at h1
          simp [pcInSec] at h1
        right
        refine ⟨u, ?_, ?_⟩
        · show pcInSec (upd s.pc t (.gotInt L (s.word L)) u) L''
          rw [upd_ne _ _ _ hut]
          exact h1
        · show pcSecWait (upd s.pc t (.gotInt L (s.word L)) u) x L'' (s.resp x)
          rw [upd_ne _ _ _ hut]
          exact h2
  · intro u L'' hu x
    dsimp only at hu
    by_cases hut : u = t
    · subst hut
      rw [upd_self] at hu
      exact absurd hu (by simp)
    · rw [upd_ne _ _ _ hut] at hu
      exact H.wsNoHold u L'' hu x
  · show upd s.pc t (.gotInt L (s.word L)) 0 = .sleeping
    rw [upd_ne _ _ _ (Ne.symm ht)]
    exact H.sentinelPc

theorem preserve_wsStoreStep (t : Nat) (ht : t ≠ 0) (s : Sys) (H : Inv s)
    (L : Nat) (hpc : s.pc t = .wsStore L) :
    Inv { s with word := upd s.word L (.wrex t),
                 pc := upd s.pc t .idle,
                 hold := upd s.hold t (some L) } := by
  have hsect : inSec s t L := by
    show pcInSec (s.pc t) L
    rw [hpc]
    simp [pcInSec]
  have hNoHold : ∀ x, s.hold x ≠ some L := H.wsNoHold t L hpc
  have hOnly : ∀ u, inSec s u L → u = t := fun u hu => H.secUnique L u t hu hsect
  have hchar : ∀ z L',
      inSec { s with word := upd s.word L (.wrex t),
                     pc := upd s.pc t .idle,
                     hold := upd s.hold t (some L) } z L' →
      z ≠ t ∧ inSec s z L' := by
    intro z L' hz
    by_cases hzt : z = t
    · subst hzt
      have hz2 : pcInSec (upd s.pc z .idle z) L' := hz
      rw [upd_self] at hz2
      exact absurd hz2 (by simp [pcInSec])
    · refine ⟨hzt, ?_⟩
      have hz2 : pcInSec (upd s.pc t .idle z) L' := hz
      rw [upd_ne _ _ _ hzt] at hz2
      exact hz2
  refine ⟨?_, ?_, H.respBound, H.reqBound, ?_, ?_, ?_, ?_, ?_, ?_, ?_, ?_, ?_⟩
  · intro L' u v hu hv
    exact H.secUnique L' u v (hchar u L' hu).2 (hchar v L' hv).2
  · intro L'
    by_cases hL : L' = L
    · subst hL
      constructor
      · intro hint
        have hint2 : upd s.word L' (.wrex t) L' = .intermediate := hint
        rw [upd_self] at hint2
        exact absurd hint2 (by simp)
      · rintro ⟨u, hu⟩
        obtain ⟨hut, hu2⟩ := hchar u L' hu
        exact absurd (hOnly u hu2) hut
    · constructor
      · intro hint
        have hint2 : upd s.word L (.wrex t) L' = .intermediate := hint
        rw [upd_ne _ _ _ hL] at hint2
        obtain ⟨u, hu⟩ := (H.wordSec L').mp hint2
        have hut : u ≠ t := by
          intro h
          subst h
          rw [show inSec s u L' = pcInSec (s.pc u) L' from rfl, hpc] at hu
          exact hL (by simpa [pcInSec] using hu.symm)
        refine ⟨u, ?_⟩
        show pcInSec (upd s.pc t .idle u) L'
        rw [upd_ne _ _ _ hut]
        exact hu
      · rintro ⟨u, hu⟩
        obtain ⟨hut, hu2⟩ := hchar u L' hu
        show upd s.word L (.wrex t) L' = .intermediate
        rw [upd_ne _ _ _ hL]
        exact (H.wordSec L').mpr ⟨u, hu2⟩
  · intro v r hm
    dsimp only at hm
    by_cases hvt : v = t
    · subst hvt
      rw [upd_self] at hm
      exact absurd hm (by simp [midReq])
    · rw [upd_ne _ _ _ hvt] at hm
      exact H.midBound v r hm
  · intro v hodd
    show pcBlocked (upd s.pc t .idle v)
    by_cases hvt : v = t
    · subst hvt
      have := H.blockedPc v hodd
      rw [hpc] at this
      exact absurd this (by simp [pcBlocked])
    · rw [upd_ne _ _ _ hvt]
      exact H.blockedPc v hodd
  · intro v hb
    dsimp only at hb
    by_cases hvt : v = t
    · subst hvt
      rw [upd_self] at hb
      exact absurd hb (by simp [pcBlocked])
    · rw [upd_ne _ _ _ hvt] at hb
      show upd s.hold t (some L) v = none
      rw [upd_ne _ _ _ hvt]
      exact H.blockedHold v hb
  · intro v L' hv
    dsimp only at hv
    show midReq (upd s.pc t .idle v) = none
    by_cases hvt : v = t
    · subst hvt
      rw [upd_self]
      rfl
    · rw [upd_ne _ _ _ hvt]
      rw [upd_ne _ _ _ hvt] at hv
      exact H.holdNotMid v L' hv
  · intro u L' hu hcon
    dsimp only at hcon
    obtain ⟨hut, hu2⟩ := hchar u L' hu
    rw [upd_ne _ _ _ hut] at hcon
    exact H.secNotHold u L' hu2 hcon
  · intro u L' hsp
    dsimp only at hsp
    by_cases hut : u = t
    · subst hut
      rw [upd_self] at hsp
      exact absurd hsp (by simp [pcSpin])
    · rw [upd_ne _ _ _ hut] at hsp
      show upd s.word L (.wrex t) L' ≠ .wrex u
      by_cases hL : L' = L
      · subst hL
        rw [upd_self]
        intro h
        have : t = u := by injection h
        exact hut this.symm
      · rw [upd_ne _ _ _ hL]
        exact H.spinWord u L' hsp
  · intro x L'' hx
    dsimp only at hx
    by_cases hxt : x = t
    · subst hxt
      rw [upd_self] at hx
      obtain rfl : L = L'' := by injection hx
      left
      show upd s.word L (.wrex x) L = .wrex x
      rw [upd_self]
    · rw [upd_ne _ _ _ hxt] at hx
      by_cases hL : L'' = L
      · subst hL
        exact absurd hx (hNoHold x)
      · rcases H.holdChar x L'' hx with h | ⟨u, h1, h2⟩
        · left
          show upd s.word L (.wrex t) L'' = .wrex x
          rw [upd_ne _ _ _ hL]
          exact h
        · have hut : u ≠ t := by
            intro hc
            subst hc
            rw [show inSec s u L'' = pcInSec (s.pc u) L'' from rfl, hpc] at h1
            exact hL (by simpa [pcInSec] using h1.symm)
          right
          refine ⟨u, ?_, ?_⟩
          · show pcInSec (upd s.pc t .idle u) L''
            rw [upd_ne _ _ _ hut]
            exact h1
          · show pcSecWait (upd s.pc t .idle u) x L'' (s.resp x)
            rw [upd_ne _ _ _ hut]
            exact h2
  · intro u L'' hu x
    dsimp only at hu
    by_cases hut : u = t
    · subst hut
      rw [upd_self] at hu
      exact absurd hu (by simp)
    · rw [upd_ne _ _ _ hut] at hu
      have hL : L'' ≠ L := by
        intro hc
        subst hc
        have : u = t := hOnly u (by
          show pcInSec (s.pc u) L''
          rw [hu]
          simp [pcInSec])
        exact hut this
      intro hcon
      dsimp only at hcon
      by_cases hxt : x = t
      · subst hxt
        rw [upd_self] at hcon
        have : L = L'' := by injection hcon
        exact hL this.symm
      · rw [upd_ne _ _ _ hxt] at hcon
        exact H.wsNoHold u L'' hu x hcon
  · show upd s.pc t .idle 0 = .sleeping
    rw [upd_ne _ _ _ (Ne.symm ht)]
    exact H.sentinelPc

theorem preserve_fuCas (t : Nat) (ht : t ≠ 0) (s : Sys) (H : Inv s)
    (L : Nat) (lv : LState) (hpc : s.pc t = .fuTry L lv) :
    Inv { s with word := if lv.ownerOf = some t ∧ s.word L = lv
                   then upd s.word L (.wrex 0) else s.word,
                 pc := upd s.pc t .idle,
                 hold := upd s.hold t none } := by
  by_cases hcas : lv.ownerOf = some t ∧ s.word L = lv
  · rw [if_pos hcas]
    obtain ⟨hown, hwv⟩ := hcas
    have hvint : lv ≠ .intermediate := by
      intro h
      subst h
      simp [LState.ownerOf] at hown
    have hNoSec : ∀ u, ¬ inSec s u L := by
      intro u hu
      have := (H.wordSec L).mpr ⟨u, hu⟩
      rw [hwv] at this
      exact hvint this
    have hchar : ∀ z L',
        inSec { s with word := upd s.word L (.wrex 0),
                       pc := upd s.pc t .idle,
                       hold := upd s.hold t none } z L' →
        z ≠ t ∧ inSec s z L' := by
      intro z L' hz
      by_cases hzt : z = t
      · subst hzt
        have hz2 : pcInSec (upd s.pc z .idle z) L' := hz
        rw [upd_self] at hz2
        exact absurd hz2 (by simp [pcInSec])
      · refine ⟨hzt, ?_⟩
        have hz2 : pcInSec (upd s.pc t .idle z) L' := hz
        rw [upd_ne _ _ _ hzt] at hz2
        exact hz2
    refine ⟨?_, ?_, H.respBound, H.reqBound, ?_, ?_, ?_, ?_, ?_, ?_, ?_, ?_, ?_⟩
    · intro L' u v hu hv
      exact H.secUnique L' u v (hchar u L' hu).2 (hchar v L' hv).2
    · intro L'
      by_cases hL : L' = L
      · subst hL
        constructor
        · intro hint
          have hint2 : upd s.word L' (.wrex 0) L' = .intermediate := hint
          rw [upd_self] at hint2
          exact absurd hint2 (by simp)
        · rintro ⟨u, hu⟩
          exact absurd (hchar u L' hu).2 (hNoSec u)
      · constructor
        · intro hint
          have hint2 : upd s.word L (.wrex 0) L' = .intermediate := hint
          rw [upd_ne _ _ _ hL] at hint2
          obtain ⟨u, hu⟩ := (H.wordSec L').mp hint2
          have hut : u ≠ t := by
            intro h
            subst h
            rw [show inSec s u L' = pcInSec (s.pc u) L' from rfl, hpc] at hu
            simp [pcInSec] at hu
          refine ⟨u, ?_⟩
          show pcInSec (upd s.pc t .idle u) L'
          rw [upd_ne _ _ _ hut]
          exact hu
        · rintro ⟨u, hu⟩
          show upd s.word L (.wrex 0) L' = .intermediate
          rw [upd_ne _ _ _ hL]
          exact (H.wordSec L').mpr ⟨u, (hchar u L' hu).2⟩
    · intro v r hm
      dsimp only at hm
      by_cases hvt : v = t
      · subst hvt
        rw [upd_self] at hm
        exact absurd hm (by simp [midReq])
      · rw [upd_ne _ _ _ hvt] at hm
        exact H.midBound v r hm
    · intro v hodd
      show pcBlocked (upd s.pc t .idle v)
      by_cases hvt : v = t
      · subst hvt
        have := H.blockedPc v hodd
        rw [hpc] at this
        exact absurd this (by simp [pcBlocked])
      · rw [upd_ne _ _ _ hvt]
        exact H.blockedPc v hodd
    · intro v hb
      dsimp only at hb
      by_cases hvt : v = t
      · subst hvt
        rw [upd_self] at hb
        exact absurd hb (by simp [pcBlocked])
      · rw [upd_ne _ _ _ hvt] at hb
        show upd s.hold t none v = none
        rw [upd_ne _ _ _ hvt]
        exact H.blockedHold v hb
    · intro v L' hv
      dsimp only at hv
      show midReq (upd s.pc t .idle v) = none
      by_cases hvt : v = t
      · subst hvt
        rw [upd_self]
        rfl
      · rw [upd_ne _ _ _ hvt] at hv
        rw [upd_ne _ _ _ hvt]
        exact H.holdNotMid v L' hv
    · intro u L' hu hcon
      dsimp only at hcon
      obtain ⟨hut, hu2⟩ := hchar u L' hu
      rw [upd_ne _ _ _ hut] at hcon
      exact H.secNotHold u L' hu2 hcon
    · intro u L' hsp
      dsimp only at hsp
      by_cases hut : u = t
      · subst hut
        rw [upd_self] at hsp
        exact absurd hsp (by simp [pcSpin])
      · rw [upd_ne _ _ _ hut] at hsp
        show upd s.word L (.wrex 0) L' ≠ .wrex u
        by_cases hL : L' = L
        · subst hL
          rw [upd_self]
          intro h
          have hu0 : 0 = u := by injection h
          subst hu0
          rw [H.sentinelPc] at hsp
          simp [pcSpin] at hsp
        · rw [upd_ne _ _ _ hL]
          exact H.spinWord u L' hsp
    · intro x L'' hx
      dsimp only at hx
      by_cases hxt : x = t
      · subst hxt
        rw [upd_self] at hx
        exact absurd hx (by simp)
      · rw [upd_ne _ _ _ hxt] at hx
        by_cases hL : L'' = L
        · subst hL
          rcases H.holdChar x L'' hx with h | ⟨u, h1, -⟩
          · rw [hwv] at h
            subst h
            simp [LState.ownerOf] at hown
            exact absurd hown hxt
          · exact absurd h1 (hNoSec u)
        · rcases H.holdChar x L'' hx with h | ⟨u, h1, h2⟩
          · left
            show upd s.word L (.wrex 0) L'' = .wrex x
            rw [upd_ne _ _ _ hL]
            exact h
          · have hut : u ≠ t := by
              intro hc
              subst hc
              rw [show inSec s u L'' = pcInSec (s.pc u) L'' from rfl, hpc] at h1
              simp [pcInSec] at h1
            right
            refine ⟨u, ?_, ?_⟩
            · show pcInSec (upd s.pc t .idle u) L''
              rw [upd_ne _ _ _ hut]
              exact h1
            · show pcSecWait (upd s.pc t .idle u) x L'' (s.resp x)
              rw [upd_ne _ _ _ hut]
              exact h2
    · intro u L'' hu x
      dsimp only at hu
      by_cases hut : u = t
      · subst hut
        rw [upd_self] at hu
        exact absurd hu (by simp)
      · rw [upd_ne _ _ _ hut] at hu
        intro hcon
        dsimp only at hcon
        by_cases hxt : x = t
        · subst hxt
          rw [upd_self] at hcon
          exact Option.noConfusion hcon
        · rw [upd_ne _ _ _ hxt] at hcon
          exact H.wsNoHold u L'' hu x hcon
    · show upd s.pc t .idle 0 = .sleeping
      rw [upd_ne _ _ _ (Ne.symm ht)]
      exact H.sentinelPc
  · rw [if_neg hcas]
    apply preserve_hrFetch t ht s H .idle
    · intro L'
      rw [hpc]
      simp [pcInSec]
    · intro x L' rx
      rw [hpc]
      simp [pcSecWait]
    · intro L' hsp
      exact absurd hsp (by simp [pcSpin])
    · rw [hpc]
      simp [pcBlocked]
    · intro r hm
      exact absurd hm (by simp [midReq])
    · intro L'
      simp

theorem pcSecWait_target_unique (p : PC) (x y L rx ry : Nat)
    (hx : pcSecWait p x L rx) (hy : pcSecWait p y L ry) : x = y := by
  cases p <;> simp_all [pcSecWait]

theorem step_preserves (t : Nat) (ht : t ≠ 0) (s s' : Sys)
    (hst : Step t s s') (H : Inv s) : Inv s' := by
  cases hst with
  | wbFast L hpc hw => exact preserve_wbFast t ht s H L hpc hw
  | wbSlow L hpc hw => exact preserve_wbSlow t ht s H L hpc hw
  | casOk L hpc hw => exact preserve_casOk t ht s H L hpc hw
  | casSpin L hpc => exact preserve_casSpin t ht s H L hpc
  | spinHR1 L hpc hassert => exact preserve_spinHR1 t ht s H L hpc
  | spinHR2 L r hpc => exact preserve_spinHR2 t ht s H L r hpc
  | pingStep L prev w hpc how hwt hassert =>
      exact preserve_pingStep t ht s H L prev w hpc how hwt hassert
  | selfOwner L prev hpc how => exact preserve_selfOwner t ht s H L prev hpc how
  | awaitDone L w c hpc hresp => exact preserve_awaitDone t ht s H L w c hpc hresp
  | awaitSpin L w c hpc => exact preserve_awaitSpin t ht s H L w c hpc
  | awaitHR1 L w c hpc hassert => exact preserve_awaitHR1 t ht s H L w c hpc
  | awaitHR2 L w c r hpc => exact preserve_awaitHR2 t ht s H L w c r hpc
  | wsStoreStep L hpc => exact preserve_wsStoreStep t ht s H L hpc
  | yield1 hpc hassert => exact preserve_yield1 t ht s H hpc
  | yield2 r hpc => exact preserve_yield2 t ht s H r hpc
  | block1 hpc hassert => exact preserve_block1 t ht s H hpc hassert
  | block2 r hpc => exact preserve_block2 t ht s H r hpc
  | unblockStep hpc => exact preserve_unblock t ht s H hpc
  | fuLoad L hpc => exact preserve_fuLoad t ht s H L hpc
  | fuCas L lv hpc => exact preserve_fuCas t ht s H L lv hpc

theorem Inv_reachable (s : Sys) (h : SysReachable s) : Inv s := by
  induction h with
  | refl => exact Inv_start
  | tail hsteps hstep ih =>
      obtain ⟨t, ht, hst⟩ := hstep
      exact step_preserves t ht _ _ hst ih

/-- Claim C1: mutual exclusion.  In every reachable state of the
protocol, for any lock L at most one thread has completed a write_lock(L)
— a writeBarrier fast-path return or the terminal store of writeSlowPath
— whose matching subsequent operation (any barrier on a different lock,
forceUnlock, yield, or any handleRequests, including those inside the
wait loops and the blocked backoff) has not yet occurred (the ghost field
hold); and at most one thread at a time has installed Intermediate on L
and is inside the slow-path handoff for L (the intermediate section
between the successful CAS of lockIntermediate and the terminal store). -/
theorem octet_mutual_exclusion (s : Sys) (h : SysReachable s) :
    (∀ L t u, s.hold t = some L → s.hold u = some L → t = u) ∧
    (∀ L t u, inSec s t L → inSec s u L → t = u) := by
  have H := Inv_reachable s h
  constructor
  · intro L t u hht hhu
    rcases H.holdChar t L hht with h1 | ⟨v1, hv1, hw1⟩ <;>
      rcases H.holdChar u L hhu with h2 | ⟨v2, hv2, hw2⟩
    · have := h1.symm.trans h2
      injection this
    · have hint : s.word L = .intermediate := (H.wordSec L).mpr ⟨v2, hv2⟩
      rw [h1] at hint
      exact LState.noConfusion hint
    · have hint : s.word L = .intermediate := (H.wordSec L).mpr ⟨v1, hv1⟩
      rw [h2] at hint
      exact LState.noConfusion hint
    · have hv : v1 = v2 := H.secUnique L v1 v2 hv1 hv2
      subst hv
      exact pcSecWait_target_unique (s.pc v1) t u L (s.resp t) (s.resp u) hw1 hw2
  · intro L t u h1 h2
    exact H.secUnique L t u h1 h2

theorem octet_mutual_exclusion_witness :
    SysReachable { Sys.start with pc := upd Sys.start.pc 1 (.spinTry 0) } ∧
    ((∀ L t u, ({ Sys.start with pc := upd Sys.start.pc 1 (.spinTry 0) } : Sys).hold t = some L →
        ({ Sys.start with pc := upd Sys.start.pc 1 (.spinTry 0) } : Sys).hold u = some L → t = u) ∧
     (∀ L t u, inSec { Sys.start with pc := upd Sys.start.pc 1 (.spinTry 0) } t L →
        inSec { Sys.start with pc := upd Sys.start.pc 1 (.spinTry 0) } u L → t = u)) := by
  have hstep : SysStep Sys.start { Sys.start with pc := upd Sys.start.pc 1 (.spinTry 0) } :=
    ⟨1, by decide, Step.wbSlow 0 rfl (by decide)⟩
  have hreach : SysReachable { Sys.start with pc := upd Sys.start.pc 1 (.spinTry 0) } :=
    Relation.ReflTransGen.single hstep
  exact ⟨hreach, octet_mutual_exclusion _ hreach⟩

end Octet
